import Mathlib

/-!
# Stock-market game: a shallow embedding of `market.cpp`

The C++ program keeps a vector of stocks owned by the market and a vector of
*pointers* to bot objects.  The embedding keeps

* the stocks as a list (position = index into `_stocks`),
* the bot objects in a store `objs`, and the registered pointers `_bots` as a
  list of positions into that store, so that one bot object registered twice
  is representable.

Conventions.

* `int` and `int64_t` values are mathematical integers.  Signed overflow is
  undefined behaviour in C++, so the embedding describes the executions in
  which no arithmetic operation overflows.
* `std::vector::operator[]` with an index outside the vector, and the
  dereference of a pointer to no object, are undefined behaviour; the
  embedding returns `none` there.
* `double` values (drift, deviation, the normal samples) are idealised as
  rationals; `std::round` is rounding half away from zero.
* The random generator is a stream of standard-normal samples
  `z : Nat → ℚ`; phase A of a day uses `z 0, z 1, …` in order.
* `Bot::trade` is virtual.  A strategy can only call `buy` and `sell`
  (the order queue is private to `Bot`), so a strategy is a function that
  returns the list of `buy`/`sell` calls it makes.
-/

namespace StockMarket

/-! ## Data model -/

/-- The class `Stock` (lines 26-48): `_id`, `_price`, `_amount`, `_deviation`, `_drift`. -/
structure Stock where
  id : Int
  price : Int
  amount : Int
  deviation : ℚ
  drift : ℚ
deriving DecidableEq

/-- The struct `Order` (lines 50-61). -/
structure Order where
  id : Int
  amount : Int
  type : Int
deriving DecidableEq

/-- The constant `Order::Type::Buy`. -/
def Order.Buy : Int := 1

/-- The constant `Order::Type::Sell`. -/
def Order.Sell : Int := 2

/-- The class `Bot` (lines 64-107).  `stocks` is `_stocks`, a vector of pointers to the
market's stock objects, kept as positions into the market's stock list. -/
structure Bot where
  name : String
  money : Int
  stocks : List Nat
  assets : List Int
  orders : List Order
  day : Int
deriving DecidableEq

/-- The class `Market` (lines 122-146).  `objs` is the store of bot objects and `bots`
is `_bots`, the registered pointers in registration order. -/
structure Market where
  stocks : List Stock
  objs : List Bot
  bots : List Nat
  day : Int
  initial : Int
deriving DecidableEq

/-! ## Order submission -/

/-- The method `Bot::buy` (line 82). -/
def Bot.buy (bot : Bot) (id amount : Int) : Bot :=
  { bot with orders := bot.orders ++ [Order.mk id amount Order.Buy] }

/-- The method `Bot::sell` (line 83). -/
def Bot.sell (bot : Bot) (id amount : Int) : Bot :=
  { bot with orders := bot.orders ++ [Order.mk id amount Order.Sell] }

/-- One call a strategy makes inside `trade()`. -/
inductive Call where
  | buy (id amount : Int)
  | sell (id amount : Int)
deriving DecidableEq

/-- Run the calls of one `trade()` invocation, in program order. -/
def Bot.submit (bot : Bot) : List Call → Bot
  | [] => bot
  | Call.buy id amount :: rest => (bot.buy id amount).submit rest
  | Call.sell id amount :: rest => (bot.sell id amount).submit rest

/-- A strategy table: the calls made by the `k`-th registered pointer's
`trade()`, given the bot object and the stocks it can read. -/
abbrev Strategy := Nat → Bot → List Stock → List Call

/-! ## Phase A: price update (lines 202-208) -/

/-- Idealised `std::round`: nearest integer, halves away from zero. -/
def roundHalfAway (x : ℚ) : Int :=
  if 0 ≤ x then ⌊x + 1 / 2⌋ else ⌈x - 1 / 2⌉

/-- Lines 204-205: the price increment of a live stock for the sample `z`. -/
def priceIncrement (stock : Stock) (z : ℚ) : Int :=
  let factor := stock.drift + stock.deviation * z
  roundHalfAway ((stock.price : ℚ) * factor)

/-- Lines 206-207: add the increment and floor the price at zero. -/
def applyIncrement (stock : Stock) (price_increment : Int) : Stock :=
  let price := stock.price + price_increment
  { stock with price := if price < 0 then 0 else price }

/-- The loop of lines 202-208 over the stocks from some position on; `k` is the number of
samples already drawn. -/
def simulateMarket (z : Nat → ℚ) : Nat → List Stock → List Stock
  | _, [] => []
  | k, stock :: rest =>
    if stock.price = 0 then stock :: simulateMarket z k rest
    else applyIncrement stock (priceIncrement stock (z k)) :: simulateMarket z (k + 1) rest

/-! ## Phase B: trade solicitation (lines 212-216) -/

/-- The loop of lines 213-216 over the registered pointers from position `k` on. -/
def tradeBots (trade : Strategy) (day : Int) (stocks : List Stock) :
    Nat → List Nat → List Bot → Option (List Bot)
  | _, [], objs => some objs
  | k, p :: ps, objs =>
    match objs[p]? with
    | none => none
    | some bot =>
      tradeBots trade day stocks (k + 1) ps
        (objs.set p { bot.submit (trade k bot stocks) with day := day })

/-! ## Phase C: settlement (lines 220-252) -/

/-- The body of the inner loop (lines 224-247) for one order of one bot. -/
def settleOrder (stocks : List Stock) (bot : Bot) (order : Order) :
    Option (List Stock × Bot) :=
  if order.id < 0 then none
  else
    match stocks[order.id.toNat]? with
    | none => none
    | some stock =>
      let operation_price := order.amount * stock.price
      if order.type = Order.Buy then
        if stock.amount < order.amount then some (stocks, bot)
        else if operation_price > bot.money then some (stocks, bot)
        else
          match bot.assets[order.id.toNat]? with
          | none => none
          | some held =>
            some (stocks.set order.id.toNat { stock with amount := stock.amount - order.amount },
                  { bot with assets := bot.assets.set order.id.toNat (held + order.amount),
                             money := bot.money - operation_price })
      else if order.type = Order.Sell then
        match bot.assets[order.id.toNat]? with
        | none => none
        | some held =>
          if held < order.amount then some (stocks, bot)
          else
            some (stocks.set order.id.toNat { stock with amount := stock.amount + order.amount },
                  { bot with assets := bot.assets.set order.id.toNat (held - order.amount),
                             money := bot.money + operation_price })
      else some (stocks, bot)

/-- The inner loop (line 221) over a bot's orders, in submission order. -/
def settleOrders (stocks : List Stock) (bot : Bot) : List Order → Option (List Stock × Bot)
  | [] => some (stocks, bot)
  | order :: rest =>
    match settleOrder stocks bot order with
    | none => none
    | some (stocks1, bot1) => settleOrders stocks1 bot1 rest

/-- One iteration of the outer loop (lines 220-252): settle the orders of the bot behind
pointer `p`, then clear its queue (line 251). -/
def settleBot (m : Market) (p : Nat) : Option Market :=
  match m.objs[p]? with
  | none => none
  | some bot =>
    match settleOrders m.stocks bot bot.orders with
    | none => none
    | some (stocks1, bot1) =>
      some { m with stocks := stocks1, objs := m.objs.set p { bot1 with orders := [] } }

/-- The outer loop of lines 220-252 over the registered pointers. -/
def processOrders : List Nat → Market → Option Market
  | [], m => some m
  | p :: ps, m =>
    match settleBot m p with
    | none => none
    | some m1 => processOrders ps m1

/-- Phase C on a market: `processOrders` over all registered pointers. -/
def settle (m : Market) : Option Market :=
  processOrders m.bots m

/-! ## The daily step -/

/-- The method `Market::simulate` (lines 198-253). -/
def simulate (z : Nat → ℚ) (trade : Strategy) (m : Market) : Option Market :=
  let stocks := simulateMarket z 0 m.stocks
  let day := m.day + 1
  match tradeBots trade day stocks 0 m.bots m.objs with
  | none => none
  | some objs => settle { m with stocks := stocks, objs := objs, day := day }

/-- Several days in sequence: one sample stream and one strategy table per day. -/
def simulateDays : List ((Nat → ℚ) × Strategy) → Market → Option Market
  | [], m => some m
  | (z, trade) :: rest, m =>
    match simulate z trade m with
    | none => none
    | some m1 => simulateDays rest m1

/-! ## Net worth (lines 110-114) -/

/-- Conversion of a `uint64_t` value to `int64_t`: the value modulo 2^64 that lies in the
signed range. -/
def toInt64 (x : Int) : Int :=
  if x % 2 ^ 64 < 2 ^ 63 then x % 2 ^ 64 else x % 2 ^ 64 - 2 ^ 64

/-- The loop of line 112 from index `i` on, over the holdings not yet visited; `total` is
the `uint64_t` accumulator, `ptrs` is `_stocks`. -/
def netLoop (stocks : List Stock) (ptrs : List Nat) : Nat → List Int → Int → Option Int
  | _, [], total => some total
  | i, held :: rest, total =>
    match ptrs[i]? with
    | none => none
    | some p =>
      match stocks[p]? with
      | none => none
      | some stock => netLoop stocks ptrs (i + 1) rest ((total + stock.price * held) % 2 ^ 64)

/-- The method `Bot::integer_net` (lines 110-114), for a bot whose stock pointers point
into `stocks`. -/
def Bot.integer_net (stocks : List Stock) (bot : Bot) : Option Int :=
  match netLoop stocks bot.stocks 0 bot.assets 0 with
  | none => none
  | some total => some (toInt64 ((total + bot.money) % 2 ^ 64))

/-! ## Stock creation (lines 157-182) -/

/-- The constructor `Stock(id, price, amount, deviation, drift)` (lines 38-39). -/
def Stock.new (id price amount : Int) (deviation drift : ℚ) : Stock :=
  { id := id, price := price, amount := amount, deviation := deviation, drift := drift }

/-- The constant `noise_factor`. -/
def noise_factor : ℚ := 1 / 5

/-- The constant `drift_factor`. -/
def drift_factor : ℚ := 200

/-- The loop of lines 161-166 with `n` iterations left and loop counter `i`; `daily` is the
value of `market_daily_drift()` and `latest` the number of stocks before the call.  The
two normal samples of iteration `i` are `z (2 * i)` and `z (2 * i + 1)`. -/
def createUniformLoop (daily : ℚ) (z : Nat → ℚ) (latest : Nat)
    (initial_price initial_amount : Int) : Nat → Nat → List Stock → List Stock
  | 0, _, stocks => stocks
  | n + 1, i, stocks =>
    let id : Int := latest + i
    let drift := daily * (1 + drift_factor * z (2 * i))
    let deviation := noise_factor * |z (2 * i + 1) * daily|
    createUniformLoop daily z latest initial_price initial_amount n (i + 1)
      (stocks ++ [Stock.new id initial_price initial_amount drift deviation])

/-- The method `Market::create_uniform` (lines 157-167). -/
def create_uniform (daily : ℚ) (z : Nat → ℚ) (m : Market) (amount : Int)
    (initial_price initial_amount : Int) : Market :=
  { m with
    stocks :=
      createUniformLoop daily z m.stocks.length initial_price initial_amount amount.toNat 0
        m.stocks }

/-- The loop of lines 176-181; `initial_price i` and `initial_amount i` are the two uniform
samples of iteration `i`. -/
def createLoop (daily : ℚ) (z : Nat → ℚ) (initial_price initial_amount : Nat → Int)
    (latest : Nat) : Nat → Nat → List Stock → List Stock
  | 0, _, stocks => stocks
  | n + 1, i, stocks =>
    let id : Int := latest + i
    let drift := daily * (1 + drift_factor * z (2 * i))
    let deviation := noise_factor * |z (2 * i + 1) * daily|
    createLoop daily z initial_price initial_amount latest n (i + 1)
      (stocks ++ [Stock.new id (initial_price i) (initial_amount i) drift deviation])

/-- The method `Market::create` (lines 170-182). -/
def create (daily : ℚ) (z : Nat → ℚ) (initial_price initial_amount : Nat → Int) (m : Market)
    (amount : Int) : Market :=
  { m with
    stocks :=
      createLoop daily z initial_price initial_amount m.stocks.length amount.toNat 0
        m.stocks }

/-! ## Bot registration and initialisation (lines 152-154, 185-195) -/

/-- The method `Market::add_bot` (lines 152-154); `p` is the pointer. -/
def add_bot (m : Market) (p : Nat) : Market :=
  { m with bots := m.bots ++ [p] }

/-- The inner loop of lines 188-191 over the stocks from position `i` on. -/
def pushStocks : Nat → List Stock → Bot → Bot
  | _, [], bot => bot
  | i, _ :: rest, bot =>
    pushStocks (i + 1) rest { bot with stocks := bot.stocks ++ [i], assets := bot.assets ++ [0] }

/-- The outer loop of lines 186-192 over the registered pointers. -/
def initializeLoop (stocks : List Stock) (initial_money : Int) :
    List Nat → List Bot → Option (List Bot)
  | [], objs => some objs
  | p :: ps, objs =>
    match objs[p]? with
    | none => none
    | some bot =>
      initializeLoop stocks initial_money ps
        (objs.set p (pushStocks 0 stocks { bot with money := initial_money }))

/-- The method `Market::initialize_bots` (lines 185-195). -/
def initialize_bots (m : Market) (initial_money : Int) : Option Market :=
  match initializeLoop m.stocks initial_money m.bots m.objs with
  | none => none
  | some objs => some { m with objs := objs, initial := initial_money }

/-! ## Constructors -/

/-- A fresh bot object, as the constructor `Bot(name)` leaves it (line 75). -/
def Bot.new (name : String) : Bot :=
  { name := name, money := 0, stocks := [], assets := [], orders := [], day := 0 }

/-- The empty market, as the constructor `Market()` leaves it (line 138), with the given
bot objects around. -/
def Market.new (objs : List Bot) : Market :=
  { stocks := [], objs := objs, bots := [], day := 0, initial := 0 }

/-! ## Observations and side conditions used in the statements -/

/-- Shares of the stock at position `i` still held by the market (0 when there is no such stock). -/
def inventory (stocks : List Stock) (i : Nat) : Int :=
  match stocks[i]? with
  | some stock => stock.amount
  | none => 0

/-- Shares of stock `i` owned by the bot (0 when its holdings vector has no such entry). -/
def Bot.holding (bot : Bot) (i : Nat) : Int :=
  match bot.assets[i]? with
  | some held => held
  | none => 0

/-- The bot's holdings vector covers `n` stocks and its pending orders name stocks below `n`. -/
def Bot.Ready (n : Nat) (bot : Bot) : Prop :=
  n ≤ bot.assets.length ∧ ∀ o ∈ bot.orders, 0 ≤ o.id ∧ o.id < n

/-- Every registered pointer refers to a bot object that is ready for the market's stocks:
the state that `initialize_bots` sets up, with pending orders whose stock ids are in range. -/
def Market.Ready (m : Market) : Prop :=
  ∀ p ∈ m.bots, ∃ bot, m.objs[p]? = some bot ∧ bot.Ready m.stocks.length

/-- Shares of stock `i` owned by the bot object behind pointer `p`. -/
def holdingAt (objs : List Bot) (i p : Nat) : Int :=
  match objs[p]? with
  | some bot => bot.holding i
  | none => 0

/-- Shares of stock `i` owned by the registered bots, summed in registration order. -/
def Market.held (m : Market) (i : Nat) : Int :=
  (m.bots.map (holdingAt m.objs i)).sum

/-- What one or more `trade()` calls may do to a bot object: append orders satisfying `V`,
leaving name, cash, stock pointers and holdings alone. -/
def TradeRel (V : Order → Prop) (b b1 : Bot) : Prop :=
  b1.name = b.name ∧ b1.money = b.money ∧ b1.stocks = b.stocks ∧ b1.assets = b.assets ∧
  ∃ extra, b1.orders = b.orders ++ extra ∧ ∀ o ∈ extra, V o

/-- The order that a `buy`/`sell` call records. -/
def Call.toOrder : Call → Order
  | Call.buy id amount => Order.mk id amount Order.Buy
  | Call.sell id amount => Order.mk id amount Order.Sell

/-- Every call of the strategy names a stock id inside the stock vector it reads. -/
def Strategy.InRange (trade : Strategy) : Prop :=
  ∀ k bot stocks, ∀ c ∈ trade k bot stocks,
    0 ≤ c.toOrder.id ∧ c.toOrder.id < stocks.length

/-- Every call of the strategy has a positive quantity. -/
def Strategy.Positive (trade : Strategy) : Prop :=
  ∀ k bot stocks, ∀ c ∈ trade k bot stocks, 0 < c.toOrder.amount

/-- The three updates of an accepted order, as a move of `d` shares of stock `k` from the
market to the bot at the stock's price (`d` is negative for a sale). -/
def transfer (stocks : List Stock) (bot : Bot) (k : Nat) (stock : Stock) (held d : Int) :
    List Stock × Bot :=
  (stocks.set k { stock with amount := stock.amount - d },
   { bot with assets := bot.assets.set k (held + d), money := bot.money - d * stock.price })

/-- Every registered bot has cash >= 0. -/
def Market.CashNonneg (m : Market) : Prop :=
  ∀ p ∈ m.bots, ∀ bot ∈ m.objs[p]?, 0 ≤ bot.money

/-- Every pending order of every registered bot has quantity > 0. -/
def Market.OrdersPositive (m : Market) : Prop :=
  ∀ p ∈ m.bots, ∀ bot ∈ m.objs[p]?, ∀ o ∈ bot.orders, 0 < o.amount

/-- Every stock has price >= 0. -/
def Market.PricesNonneg (m : Market) : Prop :=
  ∀ s ∈ m.stocks, 0 ≤ s.price

/-- Every stock has inventory >= 0 and every registered bot has holdings >= 0. -/
def Market.SharesNonneg (m : Market) : Prop :=
  (∀ s ∈ m.stocks, 0 ≤ s.amount) ∧ ∀ p ∈ m.bots, ∀ bot ∈ m.objs[p]?, ∀ a ∈ bot.assets, 0 ≤ a

instance (n : Nat) (bot : Bot) : Decidable (bot.Ready n) := by
  unfold Bot.Ready; infer_instance

instance (m : Market) : Decidable m.Ready :=
  decidable_of_iff (∀ p ∈ m.bots, ∃ bot ∈ m.objs[p]?, bot.Ready m.stocks.length)
    (by simp [Market.Ready, Option.mem_def])

instance (m : Market) : Decidable m.CashNonneg := by
  unfold Market.CashNonneg; infer_instance

instance (m : Market) : Decidable m.OrdersPositive := by
  unfold Market.OrdersPositive; infer_instance

instance (m : Market) : Decidable m.PricesNonneg := by
  unfold Market.PricesNonneg; infer_instance

instance (m : Market) : Decidable m.SharesNonneg := by
  unfold Market.SharesNonneg; infer_instance

/-- The price of the stock at position `i` (0 when there is no such stock). -/
def priceAt (stocks : List Stock) (i : Nat) : Int :=
  match stocks[i]? with
  | some stock => stock.price
  | none => 0

/-- Net worth in the words of the specification: cash plus the sum over all stock ids `i`
of `stocks[i].price * holdings[i]`. -/
def netWorth (stocks : List Stock) (bot : Bot) : Int :=
  bot.money + ((List.range stocks.length).map fun i => priceAt stocks i * bot.holding i).sum

/-- The state of a bot that `initialize_bots` has set up for `stocks`: one stock pointer
and one holdings entry per stock, in order. -/
def Bot.Initialized (stocks : List Stock) (bot : Bot) : Prop :=
  bot.stocks = List.range stocks.length ∧ bot.assets.length = stocks.length

/-! ## Concrete markets used as instances -/

/-- A live stock: price 100.00, 120 shares. -/
def demoStock : Stock := ⟨0, 10000, 120, 1 / 50, 1 / 100⟩

/-- A bot with cash 1000.00 that owns 7 shares of stock 0. -/
def demoBot : Bot := ⟨"MyBot", 100000, [0], [7], [], 0⟩

/-- One stock and two registered bots; the first has a buy order pending. -/
def demoMarket : Market :=
  { stocks := [demoStock],
    objs := [⟨"MyBot", 100000, [0], [0], [⟨0, 3, Order.Buy⟩], 0⟩,
             ⟨"MyOtherBot", 100000, [0], [0], [], 0⟩],
    bots := [0, 1], day := 0, initial := 100000 }

/-- A strategy that buys 3 and sells 2 shares of stock 0 whenever there is a stock. -/
def demoTrade : Strategy := fun _ _ stocks =>
  match stocks with
  | [] => []
  | _ :: _ => [Call.buy 0 3, Call.sell 0 2]

/-- A sample stream. -/
def demoDraws : Nat → ℚ := fun k => (k : ℚ) - 500

/-- Two days of `demoTrade`. -/
def demoDays : List ((Nat → ℚ) × Strategy) :=
  [(fun _ => 0, demoTrade), (fun k => (k : ℚ) - 1 / 2, demoTrade)]

/-- A market whose stock 0 is dead (price 0) and has a buy order pending on it. -/
def deadMarket : Market :=
  { stocks := [⟨0, 0, 120, 1 / 50, 1 / 100⟩, demoStock],
    objs := [⟨"MyBot", 100000, [0, 1], [0, 0], [⟨0, 3, Order.Buy⟩], 0⟩],
    bots := [0], day := 0, initial := 100000 }

/-- One stock with price `p` and inventory `n` that keeps its price (drift and deviation
0), and one bot with cash `c` and no shares. -/
def scenarioMarket (p c n : Int) : Market :=
  { stocks := [⟨0, p, n, 0, 0⟩], objs := [⟨"MyBot", c, [0], [0], [], 0⟩], bots := [0],
    day := 0, initial := c }

/-- The strategy `buy(0, 3)`. -/
def buyThree : Strategy := fun _ _ _ => [Call.buy 0 3]

/-- The strategy `sell(0, 2)`. -/
def sellTwo : Strategy := fun _ _ _ => [Call.sell 0 2]

/-- One stock and one registered bot whose queue holds an order for stock id 5 between two
orders for stock 0. -/
def strayMarket : Market :=
  { stocks := [demoStock],
    objs := [⟨"MyBot", 100000, [0], [7],
              [⟨0, 1, Order.Buy⟩, ⟨5, 1, Order.Buy⟩, ⟨0, 2, Order.Sell⟩], 0⟩],
    bots := [0], day := 0, initial := 100000 }

/-- One share of stock 0 in the inventory; the bot objects 0 and 1 both order it, object 2
orders two shares of stock 1; the registration order is 2, 0, 1. -/
def priorityMarket : Market :=
  { stocks := [⟨0, 10000, 1, 1 / 50, 1 / 100⟩, ⟨1, 500, 40, 1 / 50, 1 / 100⟩],
    objs := [⟨"A", 100000, [0, 1], [0, 0], [⟨0, 1, Order.Buy⟩], 0⟩,
             ⟨"B", 100000, [0, 1], [0, 0], [⟨0, 1, Order.Buy⟩], 0⟩,
             ⟨"C", 100000, [0, 1], [0, 0], [⟨1, 2, Order.Buy⟩], 0⟩],
    bots := [2, 0, 1], day := 0, initial := 100000 }

/-- One share of stock 0 in the inventory; the bot objects 0 (A), 1 (B) and 2 (C) each order
it; the registration order is C, A, B. -/
def crowdedMarket : Market :=
  { stocks := [⟨0, 10000, 1, 1 / 50, 1 / 100⟩],
    objs := [⟨"A", 100000, [0], [0], [⟨0, 1, Order.Buy⟩], 0⟩,
             ⟨"B", 100000, [0], [0], [⟨0, 1, Order.Buy⟩], 0⟩,
             ⟨"C", 100000, [0], [0], [⟨0, 1, Order.Buy⟩], 0⟩],
    bots := [2, 0, 1], day := 0, initial := 100000 }

/-! ## Further observations: net worth, initialisation, creation, days -/

/-- The sum that `netLoop` accumulates from index `i` on, without the reduction modulo
2^64. -/
def sumFrom (stocks : List Stock) : Nat → List Int → Int
  | _, [] => 0
  | i, held :: rest => priceAt stocks i * held + sumFrom stocks (i + 1) rest

/-- What one pass of the loop body of `initialize_bots` does to a bot object. -/
def initStep (stocks : List Stock) (initial_money : Int) (bot : Bot) : Bot :=
  pushStocks 0 stocks { bot with money := initial_money }

instance (stocks : List Stock) (bot : Bot) : Decidable (bot.Initialized stocks) := by
  unfold Bot.Initialized; infer_instance

/-- The stock that iteration `j` of the loop of `create_uniform` constructs. -/
def uniformStock (daily : ℚ) (z : Nat → ℚ) (latest : Nat) (initial_price initial_amount : Int)
    (j : Nat) : Stock :=
  Stock.new (latest + j) initial_price initial_amount
    (daily * (1 + drift_factor * z (2 * j))) (noise_factor * |z (2 * j + 1) * daily|)

/-- The stock that iteration `j` of the loop of `create` constructs. -/
def randomStock (daily : ℚ) (z : Nat → ℚ) (initial_price initial_amount : Nat → Int)
    (latest : Nat) (j : Nat) : Stock :=
  Stock.new (latest + j) (initial_price j) (initial_amount j)
    (daily * (1 + drift_factor * z (2 * j))) (noise_factor * |z (2 * j + 1) * daily|)

/-- Stock ids are dense: the stock at position `i` has id `i`. -/
def Dense (stocks : List Stock) : Prop :=
  ∀ (i : Nat) (s : Stock), stocks[i]? = some s → s.id = i

/-- One stock-creation call of the market's interface. -/
inductive Creation where
  | uniform (daily : ℚ) (z : Nat → ℚ) (amount initial_price initial_amount : Int)
  | random (daily : ℚ) (z : Nat → ℚ) (initial_price initial_amount : Nat → Int) (amount : Int)

/-- Run one creation call. -/
def Creation.run (m : Market) : Creation → Market
  | Creation.uniform daily z amount initial_price initial_amount =>
    create_uniform daily z m amount initial_price initial_amount
  | Creation.random daily z initial_price initial_amount amount =>
    create daily z initial_price initial_amount m amount

/-- Run a sequence of creation calls. -/
def runCreations : Market → List Creation → Market
  | m, [] => m
  | m, call :: rest => runCreations (call.run m) rest

/-- Every registered bot has the given day. -/
def Market.BotsAtDay (m : Market) (day : Int) : Prop :=
  ∀ p ∈ m.bots, ∀ bot ∈ m.objs[p]?, bot.day = day

instance (m : Market) (day : Int) : Decidable (m.BotsAtDay day) := by
  unfold Market.BotsAtDay; infer_instance

/-- No registered bot has a pending order, and every registered pointer refers to a bot. -/
def Market.Quiet (m : Market) : Prop :=
  ∀ p ∈ m.bots, ∃ bot ∈ m.objs[p]?, bot.orders = []

instance (m : Market) : Decidable m.Quiet := by
  unfold Market.Quiet; infer_instance

/-- The strategy submits no order. -/
def Strategy.Silent (trade : Strategy) : Prop :=
  ∀ k bot stocks, trade k bot stocks = []

/-- What a day without orders may do to a bot object: set its day. -/
def SameBut (b b1 : Bot) : Prop :=
  b1.name = b.name ∧ b1.money = b.money ∧ b1.stocks = b.stocks ∧ b1.assets = b.assets ∧
  b1.orders = b.orders

/-- Every registered bot has an empty pending queue. -/
def Market.QueuesEmpty (m : Market) : Prop :=
  ∀ p ∈ m.bots, ∀ bot ∈ m.objs[p]?, bot.orders = []

instance (m : Market) : Decidable m.QueuesEmpty := by
  unfold Market.QueuesEmpty; infer_instance

/-! ## Further concrete markets -/

/-- One stock and two fresh bot objects, each registered once. -/
def freshMarket : Market :=
  { stocks := [demoStock], objs := [Bot.new "MyBot", Bot.new "MyOtherBot"], bots := [0, 1],
    day := 0, initial := 0 }

/-- One stock and one fresh bot object that is registered twice. -/
def twiceMarket : Market :=
  { stocks := [demoStock], objs := [Bot.new "MyBot"], bots := [0, 0], day := 0, initial := 0 }

/-- No stock and one fresh bot object that is registered twice. -/
def dupMarket : Market :=
  { stocks := [], objs := [Bot.new "MyBot"], bots := [0, 0], day := 0, initial := 0 }

/-- The strategy of `MyBot` and `MyOtherBot` (lines 281-296): do nothing. -/
def idle : Strategy := fun _ _ _ => []

/-- Two days of `idle`. -/
def idleDays : List ((Nat → ℚ) × Strategy) :=
  [(demoDraws, idle), (demoDraws, idle)]

/-- The samples 1, 2, 3, ... -/
def countingDraws : Nat → ℚ := fun k => (k : ℚ) + 1

/-- The market `demoMarket` in which the second bot has an order for the whole inventory
pending. -/
def rivalMarket : Market :=
  { stocks := [demoStock],
    objs := [⟨"MyBot", 100000, [0], [0], [⟨0, 3, Order.Buy⟩], 0⟩,
             ⟨"MyOtherBot", 100000, [0], [0], [⟨0, 120, Order.Buy⟩], 0⟩],
    bots := [0, 1], day := 0, initial := 100000 }

/-! ## Lemmas -/

theorem settleOrder_cases {stocks : List Stock} {bot : Bot} {order : Order}
    {r : List Stock × Bot} (h : settleOrder stocks bot order = some r) :
    0 ≤ order.id ∧ ∃ stock, stocks[order.id.toNat]? = some stock ∧
    (r = (stocks, bot) ∨
     ∃ held, bot.assets[order.id.toNat]? = some held ∧
       ((order.type = Order.Buy ∧ order.amount ≤ stock.amount ∧
          order.amount * stock.price ≤ bot.money ∧
          r = transfer stocks bot order.id.toNat stock held order.amount) ∨
        (order.type = Order.Sell ∧ order.amount ≤ held ∧
          r = transfer stocks bot order.id.toNat stock held (-order.amount)))) := by
  unfold settleOrder at h
  split at h
  · simp at h
  · rename_i hid
    refine ⟨by omega, ?_⟩
    split at h
    · simp at h
    · rename_i stock hstock
      refine ⟨stock, hstock, ?_⟩
      simp only at h
      split at h
      · rename_i hbuy
        split at h
        · left; simpa using h.symm
        · split at h
          · left; simpa using h.symm
          · split at h
            · simp at h
            · rename_i held hheld
              right
              refine ⟨held, hheld, Or.inl ⟨hbuy, by omega, by omega, ?_⟩⟩
              simpa [transfer] using h.symm
      · split at h
        · rename_i hsell
          split at h
          · simp at h
          · rename_i held hheld
            split at h
            · left; simpa using h.symm
            · right
              refine ⟨held, hheld, Or.inr ⟨hsell, by omega, ?_⟩⟩
              simp only [Option.some.injEq] at h
              rw [← h]
              simp [transfer, sub_neg_eq_add, ← sub_eq_add_neg]
        · left; simpa using h.symm


theorem settleOrder_total {stocks : List Stock} {bot : Bot} {order : Order}
    (hlen : stocks.length ≤ bot.assets.length)
    (hid : 0 ≤ order.id ∧ order.id < stocks.length) :
    ∃ r, settleOrder stocks bot order = some r := by
  have hk : order.id.toNat < stocks.length := by omega
  have hs : stocks[order.id.toNat]? = some stocks[order.id.toNat] :=
    List.getElem?_eq_getElem hk
  have hk2 : order.id.toNat < bot.assets.length := by omega
  have hh : bot.assets[order.id.toNat]? = some bot.assets[order.id.toNat] :=
    List.getElem?_eq_getElem hk2
  unfold settleOrder
  rw [if_neg (by omega), hs]
  simp only [hh]
  split_ifs <;> exact ⟨_, rfl⟩

theorem transfer_length {stocks : List Stock} {bot : Bot} {k : Nat} {stock : Stock}
    {held d : Int} :
    (transfer stocks bot k stock held d).1.length = stocks.length ∧
    (transfer stocks bot k stock held d).2.assets.length = bot.assets.length ∧
    (transfer stocks bot k stock held d).2.orders = bot.orders := by
  simp [transfer]

theorem transfer_total {stocks : List Stock} {bot : Bot} {k : Nat} {stock : Stock}
    {held d : Int} (hs : stocks[k]? = some stock) (hh : bot.assets[k]? = some held) (i : Nat) :
    inventory (transfer stocks bot k stock held d).1 i +
      (transfer stocks bot k stock held d).2.holding i =
    inventory stocks i + bot.holding i := by
  have hk : k < stocks.length := (List.getElem?_eq_some.mp hs).1
  have hk2 : k < bot.assets.length := (List.getElem?_eq_some.mp hh).1
  by_cases hik : k = i
  · subst hik
    simp [transfer, inventory, Bot.holding, List.getElem?_set, hk, hk2, hs, hh]
  · simp [transfer, inventory, Bot.holding, List.getElem?_set, hik]

theorem transfer_price {stocks : List Stock} {bot : Bot} {k : Nat} {stock : Stock}
    {held d : Int} (hs : stocks[k]? = some stock) :
    (transfer stocks bot k stock held d).1.map Stock.price = stocks.map Stock.price := by
  have hk : k < stocks.length := (List.getElem?_eq_some.mp hs).1
  apply List.ext_getElem?
  intro i
  by_cases hik : k = i
  · subst hik
    simp [transfer, List.getElem?_set, hk, hs]
    rw [(List.getElem?_eq_some.mp hs).2]
  · simp [transfer, List.getElem?_set, hik]

/-- Induction along the inner settlement loop. -/
theorem settleOrders_induct (P : List Stock → Bot → Prop) :
    ∀ (orders : List Order),
    (∀ st b o r, o ∈ orders → P st b → settleOrder st b o = some r → P r.1 r.2) →
    ∀ stocks bot r, P stocks bot → settleOrders stocks bot orders = some r → P r.1 r.2 := by
  intro orders
  induction orders with
  | nil =>
    intro _ stocks bot r hP h
    simp [settleOrders] at h
    subst h
    exact hP
  | cons o rest ih =>
    intro step stocks bot r hP h
    unfold settleOrders at h
    split at h
    · simp at h
    · rename_i st1 b1 h1
      have hP1 : P st1 b1 := step stocks bot o (st1, b1) (List.mem_cons_self _ _) hP h1
      exact ih (fun st b o' r' ho' => step st b o' r' (List.mem_cons_of_mem _ ho')) st1 b1 r hP1 h

theorem settleOrder_length {stocks : List Stock} {bot : Bot} {order : Order}
    {r : List Stock × Bot} (h : settleOrder stocks bot order = some r) :
    r.1.length = stocks.length ∧ r.2.assets.length = bot.assets.length ∧
    r.2.orders = bot.orders := by
  obtain ⟨_, stock, _, hr | ⟨held, _, ⟨_, _, _, hr⟩ | ⟨_, _, hr⟩⟩⟩ := settleOrder_cases h
  · subst hr; simp
  · subst hr; exact transfer_length
  · subst hr; exact transfer_length

theorem settleOrders_total :
    ∀ (orders : List Order) (stocks : List Stock) (bot : Bot),
    stocks.length ≤ bot.assets.length →
    (∀ o ∈ orders, 0 ≤ o.id ∧ o.id < stocks.length) →
    ∃ r, settleOrders stocks bot orders = some r := by
  intro orders
  induction orders with
  | nil => intro stocks bot _ _; exact ⟨_, rfl⟩
  | cons o rest ih =>
    intro stocks bot hlen hin
    obtain ⟨r, hr⟩ := settleOrder_total hlen (hin o (List.mem_cons_self _ _))
    obtain ⟨h1, h2, _⟩ := settleOrder_length hr
    obtain ⟨st1, b1⟩ := r
    simp only at h1 h2
    obtain ⟨r2, hr2⟩ := ih st1 b1 (by omega)
      (fun o' ho' => by rw [h1]; exact hin o' (List.mem_cons_of_mem _ ho'))
    exact ⟨r2, by simp [settleOrders, hr, hr2]⟩


theorem settleOrders_length {stocks : List Stock} {bot : Bot} {orders : List Order}
    {r : List Stock × Bot} (h : settleOrders stocks bot orders = some r) :
    r.1.length = stocks.length ∧ r.2.assets.length = bot.assets.length ∧
    r.2.orders = bot.orders := by
  refine settleOrders_induct
    (fun st b => st.length = stocks.length ∧ b.assets.length = bot.assets.length ∧
      b.orders = bot.orders) orders ?_ stocks bot r ⟨rfl, rfl, rfl⟩ h
  intro st b o r1 _ hP h1
  obtain ⟨h2, h3, h4⟩ := settleOrder_length h1
  exact ⟨h2.trans hP.1, h3.trans hP.2.1, h4.trans hP.2.2⟩

theorem settleBot_spec {m m1 : Market} {p : Nat} (h : settleBot m p = some m1) :
    ∃ bot st1 b1, m.objs[p]? = some bot ∧
      settleOrders m.stocks bot bot.orders = some (st1, b1) ∧
      m1 = { m with stocks := st1, objs := m.objs.set p { b1 with orders := [] } } := by
  unfold settleBot at h
  split at h
  · simp at h
  · rename_i bot hbot
    split at h
    · simp at h
    · rename_i st1 b1 h1
      exact ⟨bot, st1, b1, hbot, h1, by simpa using h.symm⟩

theorem settleBot_total {m : Market} {p : Nat} (hready : m.Ready) (hp : p ∈ m.bots) :
    ∃ m1, settleBot m p = some m1 := by
  obtain ⟨bot, hbot, hlen, hin⟩ := hready p hp
  obtain ⟨⟨st1, b1⟩, hr⟩ := settleOrders_total bot.orders m.stocks bot hlen hin
  exact ⟨{ m with stocks := st1, objs := m.objs.set p { b1 with orders := [] } },
    by simp [settleBot, hbot, hr]⟩

/-- What a registered pointer sees after the bot behind `p` has been settled. -/
theorem settleBot_lookup {m m1 : Market} {p : Nat} (h : settleBot m p = some m1)
    {q : Nat} {b : Bot} (hq : m1.objs[q]? = some b) :
    (q ≠ p ∧ m.objs[q]? = some b) ∨
    (q = p ∧ ∃ bot st1 b1, m.objs[p]? = some bot ∧
      settleOrders m.stocks bot bot.orders = some (st1, b1) ∧ m1.stocks = st1 ∧
      b = { b1 with orders := [] }) := by
  obtain ⟨bot, st1, b1, hbot, h1, rfl⟩ := settleBot_spec h
  simp only [List.getElem?_set] at hq
  by_cases hpq : p = q
  · subst hpq
    right
    have hlt : p < m.objs.length := (List.getElem?_eq_some.mp hbot).1
    simp [hlt] at hq
    exact ⟨rfl, bot, st1, b1, hbot, h1, rfl, hq.symm⟩
  · left
    simp [hpq] at hq
    exact ⟨fun h => hpq h.symm, hq⟩

theorem settleBot_ready {m m1 : Market} {p : Nat} (hready : m.Ready)
    (h : settleBot m p = some m1) : m1.Ready ∧ m1.bots = m.bots ∧
      m1.stocks.length = m.stocks.length ∧ m1.objs.length = m.objs.length ∧
      m1.day = m.day ∧ m1.initial = m.initial := by
  obtain ⟨bot, st1, b1, hbot, h1, rfl⟩ := settleBot_spec h
  obtain ⟨hl1, hl2, _⟩ := settleOrders_length h1
  simp only at hl1 hl2
  refine ⟨?_, rfl, hl1, by simp, rfl, rfl⟩
  intro q hq
  obtain ⟨bq, hbq, hlen, hin⟩ := hready q hq
  have hlt : p < m.objs.length := (List.getElem?_eq_some.mp hbot).1
  by_cases hpq : p = q
  · subst hpq
    refine ⟨{ b1 with orders := [] }, by simp [List.getElem?_set, hlt], ?_, by simp⟩
    rw [hbq] at hbot
    cases hbot
    simp only [hl1, hl2]
    exact hlen
  · refine ⟨bq, by simp [List.getElem?_set, hpq, hbq], ?_, ?_⟩
    · simpa [hl1] using hlen
    · simpa [hl1] using hin

/-- Induction along the outer settlement loop, for a property of the stocks and a
property of every registered bot. -/
theorem processOrders_pred (S : List Stock → Prop) (Q : Bot → Prop)
    (hclear : ∀ b, Q b → Q { b with orders := [] })
    (hord : ∀ st b o r, o ∈ b.orders → S st → Q b → settleOrder st b o = some r →
      S r.1 ∧ Q r.2) :
    ∀ (ps : List Nat) (m : Market), (∀ p ∈ ps, p ∈ m.bots) → m.Ready → S m.stocks →
      (∀ p ∈ m.bots, ∀ bot, m.objs[p]? = some bot → Q bot) →
      ∃ m1, processOrders ps m = some m1 ∧ m1.Ready ∧ S m1.stocks ∧
        (∀ p ∈ m1.bots, ∀ bot, m1.objs[p]? = some bot → Q bot) ∧ m1.bots = m.bots ∧
        m1.stocks.length = m.stocks.length ∧ m1.objs.length = m.objs.length ∧
        m1.day = m.day ∧ m1.initial = m.initial := by
  intro ps
  induction ps with
  | nil =>
    intro m _ hready hS hQ
    exact ⟨m, rfl, hready, hS, hQ, rfl, rfl, rfl, rfl, rfl⟩
  | cons p ps ih =>
    intro m hsub hready hS hQ
    have hp : p ∈ m.bots := hsub p (List.mem_cons_self _ _)
    obtain ⟨m1, hm1⟩ := settleBot_total hready hp
    obtain ⟨hready1, hbots1, hlen1, hobjs1, hday1, hinit1⟩ := settleBot_ready hready hm1
    obtain ⟨bot, st1, b1, hbot, h1, hm1eq⟩ := settleBot_spec hm1
    have hkey : S st1 ∧ Q b1 ∧ b1.orders = bot.orders := by
      refine settleOrders_induct (fun st b => S st ∧ Q b ∧ b.orders = bot.orders)
        bot.orders ?_ m.stocks bot (st1, b1) ⟨hS, hQ p hp bot hbot, rfl⟩ h1
      intro st b o r ho hP hr
      obtain ⟨hSr, hQr⟩ := hord st b o r (by rw [hP.2.2]; exact ho) hP.1 hP.2.1 hr
      exact ⟨hSr, hQr, (settleOrder_length hr).2.2.trans hP.2.2⟩
    have hS1 : S m1.stocks := by rw [hm1eq]; exact hkey.1
    have hQ1 : ∀ q ∈ m1.bots, ∀ b, m1.objs[q]? = some b → Q b := by
      intro q hq b hb
      rcases settleBot_lookup hm1 hb with ⟨_, hb0⟩ | ⟨_, bot2, st2, b2, hbot2, h2, _, rfl⟩
      · exact hQ q (hbots1 ▸ hq) b hb0
      · rw [hbot] at hbot2
        cases hbot2
        rw [h1] at h2
        cases h2
        exact hclear _ hkey.2.1
    obtain ⟨m2, hm2, hready2, hS2, hQ2, hbots2, hlen2, hobjs2, hday2, hinit2⟩ :=
      ih m1 (fun q hq => hbots1 ▸ hsub q (List.mem_cons_of_mem _ hq)) hready1 hS1 hQ1
    refine ⟨m2, by simp [processOrders, hm1, hm2], hready2, hS2, hQ2, hbots2.trans hbots1,
      hlen2.trans hlen1, hobjs2.trans hobjs1, hday2.trans hday1, hinit2.trans hinit1⟩


/-! ### Phase A -/

theorem simulateMarket_length (z : Nat → ℚ) :
    ∀ (stocks : List Stock) (k : Nat), (simulateMarket z k stocks).length = stocks.length := by
  intro stocks
  induction stocks with
  | nil => intro k; simp [simulateMarket]
  | cons s rest ih =>
    intro k
    unfold simulateMarket
    split_ifs <;> simp [ih]

/-- Phase A at one position: a dead stock is left as it is, a live one gets the
increment computed from one sample. -/
theorem simulateMarket_getElem? (z : Nat → ℚ) :
    ∀ (stocks : List Stock) (k i : Nat) (s : Stock), stocks[i]? = some s →
      ∃ s1, (simulateMarket z k stocks)[i]? = some s1 ∧
        ((s.price = 0 ∧ s1 = s) ∨
         (s.price ≠ 0 ∧ ∃ j, s1 = applyIncrement s (priceIncrement s (z j)))) := by
  intro stocks
  induction stocks with
  | nil => intro k i s h; simp at h
  | cons s0 rest ih =>
    intro k i s h
    cases i with
    | zero =>
      simp only [List.getElem?_cons_zero, Option.some.injEq] at h
      subst h
      unfold simulateMarket
      split_ifs with h0
      · exact ⟨s0, by simp, Or.inl ⟨h0, rfl⟩⟩
      · exact ⟨_, by simp, Or.inr ⟨h0, k, rfl⟩⟩
    | succ i =>
      simp only [List.getElem?_cons_succ] at h
      unfold simulateMarket
      split_ifs with h0
      · obtain ⟨s1, h1, h2⟩ := ih k i s h
        exact ⟨s1, by simpa using h1, h2⟩
      · obtain ⟨s1, h1, h2⟩ := ih (k + 1) i s h
        exact ⟨s1, by simpa using h1, h2⟩

theorem applyIncrement_price (stock : Stock) (d : Int) :
    (applyIncrement stock d).price = max 0 (stock.price + d) := by
  unfold applyIncrement
  simp only
  split_ifs with h
  · rw [max_eq_left (le_of_lt h)]
  · rw [max_eq_right (not_lt.mp h)]

theorem applyIncrement_amount (stock : Stock) (d : Int) :
    (applyIncrement stock d).amount = stock.amount := rfl

theorem simulateMarket_amount (z : Nat → ℚ) (stocks : List Stock) (k i : Nat) :
    inventory (simulateMarket z k stocks) i = inventory stocks i := by
  unfold inventory
  cases h : stocks[i]? with
  | none =>
    have : (simulateMarket z k stocks)[i]? = none := by
      rw [List.getElem?_eq_none_iff] at h ⊢
      rw [simulateMarket_length]; exact h
    rw [this]
  | some s =>
    obtain ⟨s1, h1, h2 | ⟨_, j, h2⟩⟩ := simulateMarket_getElem? z stocks k i s h
    · rw [h1, h2.2]
    · rw [h1, h2]; rfl

theorem simulateMarket_mem (z : Nat → ℚ) (stocks : List Stock) (k : Nat) (s1 : Stock)
    (h : s1 ∈ simulateMarket z k stocks) :
    ∃ s ∈ stocks, (s.price = 0 ∧ s1 = s) ∨
      (s.price ≠ 0 ∧ ∃ j, s1 = applyIncrement s (priceIncrement s (z j))) := by
  obtain ⟨i, hi⟩ := List.getElem?_of_mem h
  have hlt : i < stocks.length := by
    have := (List.getElem?_eq_some.mp hi).1
    rwa [simulateMarket_length] at this
  obtain ⟨s1', h1, h2⟩ := simulateMarket_getElem? z stocks k i _ (List.getElem?_eq_getElem hlt)
  rw [hi] at h1
  cases h1
  exact ⟨stocks[i], List.getElem_mem _, h2⟩

theorem simulateMarket_price_nonneg (z : Nat → ℚ) (stocks : List Stock) (k : Nat) :
    ∀ s ∈ simulateMarket z k stocks, 0 ≤ s.price := by
  intro s1 h
  obtain ⟨s, _, ⟨h0, rfl⟩ | ⟨_, j, rfl⟩⟩ := simulateMarket_mem z stocks k s1 h
  · omega
  · rw [applyIncrement_price]; exact le_max_left _ _

/-! ### Phase B -/

theorem submit_eq (bot : Bot) (calls : List Call) :
    bot.submit calls = { bot with orders := bot.orders ++ calls.map Call.toOrder } := by
  induction calls generalizing bot with
  | nil => simp [Bot.submit]
  | cons c rest ih =>
    cases c <;> simp [Bot.submit, ih, Bot.buy, Bot.sell, Call.toOrder]

/-- Induction along the trade loop for a relation between a bot object before and
after the loop. -/
theorem tradeBots_rel (trade : Strategy) (day : Int) (stocks : List Stock)
    (R : Bot → Bot → Prop) (hrefl : ∀ b, R b b)
    (htrans : ∀ a b c, R a b → R b c → R a c)
    (hstep : ∀ k b, R b { b.submit (trade k b stocks) with day := day }) :
    ∀ (ps : List Nat) (k : Nat) (objs : List Bot), (∀ p ∈ ps, p < objs.length) →
      ∃ objs1, tradeBots trade day stocks k ps objs = some objs1 ∧
        objs1.length = objs.length ∧
        ∀ (q : Nat) (b : Bot), objs[q]? = some b → ∃ b1, objs1[q]? = some b1 ∧ R b b1 := by
  intro ps
  induction ps with
  | nil =>
    intro k objs _
    exact ⟨objs, rfl, rfl, fun q b hb => ⟨b, hb, hrefl b⟩⟩
  | cons p ps ih =>
    intro k objs hps
    have hp : p < objs.length := hps p (List.mem_cons_self _ _)
    have hbot : objs[p]? = some objs[p] := List.getElem?_eq_getElem hp
    obtain ⟨objs1, h1, hlen1, hrel1⟩ := ih (k + 1)
      (objs.set p { (objs[p]).submit (trade k objs[p] stocks) with day := day })
      (fun q hq => by simpa using hps q (List.mem_cons_of_mem _ hq))
    refine ⟨objs1, by simp only [tradeBots, hbot]; exact h1, by simpa using hlen1, ?_⟩
    intro q b hb
    by_cases hpq : p = q
    · subst hpq
      rw [hbot] at hb
      cases hb
      obtain ⟨b1, hb1, hR⟩ := hrel1 p
        { (objs[p]).submit (trade k objs[p] stocks) with day := day }
        (by simp [List.getElem?_set, hp])
      exact ⟨b1, hb1, htrans _ _ _ (hstep k _) hR⟩
    · exact hrel1 q b (by simp [List.getElem?_set, hpq, hb])


theorem tradeRel_refl (V : Order → Prop) (b : Bot) : TradeRel V b b :=
  ⟨rfl, rfl, rfl, rfl, [], by simp, by simp⟩

theorem tradeRel_trans (V : Order → Prop) (a b c : Bot) (h1 : TradeRel V a b)
    (h2 : TradeRel V b c) : TradeRel V a c := by
  obtain ⟨n1, m1, s1, a1, e1, o1, v1⟩ := h1
  obtain ⟨n2, m2, s2, a2, e2, o2, v2⟩ := h2
  refine ⟨n2.trans n1, m2.trans m1, s2.trans s1, a2.trans a1, e1 ++ e2, ?_, ?_⟩
  · rw [o2, o1, List.append_assoc]
  · intro o ho
    rcases List.mem_append.mp ho with h | h
    · exact v1 o h
    · exact v2 o h

theorem tradeRel_mono {V W : Order → Prop} (hVW : ∀ o, V o → W o) {b b1 : Bot}
    (h : TradeRel V b b1) : TradeRel W b b1 := by
  obtain ⟨n1, m1, s1, a1, e1, o1, v1⟩ := h
  exact ⟨n1, m1, s1, a1, e1, o1, fun o ho => hVW o (v1 o ho)⟩

/-- Phases A and B of a day, followed by what is left to do: settlement. -/
theorem simulate_phases (V : Order → Prop) (z : Nat → ℚ) (trade : Strategy) (m : Market)
    (hready : m.Ready) (hin : trade.InRange)
    (hV : ∀ k bot stocks, ∀ c ∈ trade k bot stocks, V c.toOrder) :
    ∃ objs1,
      tradeBots trade (m.day + 1) (simulateMarket z 0 m.stocks) 0 m.bots m.objs = some objs1 ∧
      simulate z trade m =
        settle { m with stocks := simulateMarket z 0 m.stocks, objs := objs1,
                        day := m.day + 1 } ∧
      Market.Ready { m with stocks := simulateMarket z 0 m.stocks, objs := objs1,
                            day := m.day + 1 } ∧
      objs1.length = m.objs.length ∧
      ∀ (q : Nat) (b : Bot), m.objs[q]? = some b →
        ∃ b1, objs1[q]? = some b1 ∧ TradeRel V b b1 := by
  have hptr : ∀ p ∈ m.bots, p < m.objs.length := by
    intro p hp
    obtain ⟨bot, hbot, _⟩ := hready p hp
    exact (List.getElem?_eq_some.mp hbot).1
  let W : Order → Prop := fun o =>
    V o ∧ 0 ≤ o.id ∧ o.id < (simulateMarket z 0 m.stocks).length
  obtain ⟨objs1, h1, hlen1, hrel1⟩ := tradeBots_rel trade (m.day + 1)
    (simulateMarket z 0 m.stocks) (TradeRel W) (tradeRel_refl W) (tradeRel_trans W)
    (fun k b => by
      rw [submit_eq]
      refine ⟨rfl, rfl, rfl, rfl, _, rfl, ?_⟩
      intro o ho
      obtain ⟨c, hc, rfl⟩ := List.mem_map.mp ho
      exact ⟨hV k b _ c hc, hin k b _ c hc⟩)
    m.bots 0 m.objs hptr
  refine ⟨objs1, h1, by simp [simulate, h1], ?_, hlen1, ?_⟩
  · intro p hp
    obtain ⟨bot, hbot, hlen, hord⟩ := hready p hp
    obtain ⟨b1, hb1, _, _, _, ha, extra, ho, hextra⟩ := hrel1 p bot hbot
    refine ⟨b1, hb1, ?_, ?_⟩
    · simpa [ha, simulateMarket_length] using hlen
    · intro o hmem
      rw [ho] at hmem
      rcases List.mem_append.mp hmem with h | h
      · simpa [simulateMarket_length] using hord o h
      · exact (hextra o h).2
  · intro q b hb
    obtain ⟨b1, hb1, hR⟩ := hrel1 q b hb
    exact ⟨b1, hb1, tradeRel_mono (fun o h => h.1) hR⟩

/-- A day of simulation keeps a property of the stocks that phase A establishes and
settlement keeps, together with a property of every registered bot that trading and
settlement keep. -/
theorem simulate_pred (S : List Stock → Prop) (Q : Bot → Prop) (V : Order → Prop)
    (hclear : ∀ b, Q b → Q { b with orders := [] })
    (hord : ∀ st b o r, o ∈ b.orders → S st → Q b → settleOrder st b o = some r →
      S r.1 ∧ Q r.2)
    (htr : ∀ b b1, TradeRel V b b1 → Q b → Q b1)
    (z : Nat → ℚ) (trade : Strategy) (m : Market)
    (hready : m.Ready) (hin : trade.InRange)
    (hV : ∀ k bot stocks, ∀ c ∈ trade k bot stocks, V c.toOrder)
    (hS : S (simulateMarket z 0 m.stocks))
    (hQ : ∀ p ∈ m.bots, ∀ bot, m.objs[p]? = some bot → Q bot) :
    ∃ m1, simulate z trade m = some m1 ∧ m1.Ready ∧ S m1.stocks ∧
      (∀ p ∈ m1.bots, ∀ bot, m1.objs[p]? = some bot → Q bot) ∧ m1.bots = m.bots ∧
      m1.stocks.length = m.stocks.length ∧ m1.objs.length = m.objs.length ∧
      m1.day = m.day + 1 ∧ m1.initial = m.initial := by
  obtain ⟨objs1, _, hsim, hreadyB, hlenB, hrel⟩ := simulate_phases V z trade m hready hin hV
  have hQB : ∀ p ∈ m.bots, ∀ bot, objs1[p]? = some bot → Q bot := by
    intro p hp bot hbot
    obtain ⟨b0, hb0, _⟩ := hready p hp
    obtain ⟨b1, hb1, hR⟩ := hrel p b0 hb0
    rw [hbot] at hb1
    cases hb1
    exact htr b0 bot hR (hQ p hp b0 hb0)
  obtain ⟨m1, hm1, hr1, hS1, hQ1, hb1, hl1, ho1, hd1, hi1⟩ :=
    processOrders_pred S Q hclear hord m.bots
      { m with stocks := simulateMarket z 0 m.stocks, objs := objs1, day := m.day + 1 }
      (fun p hp => hp) hreadyB hS hQB
  refine ⟨m1, by rw [hsim]; exact hm1, hr1, hS1, hQ1, hb1, ?_, ?_, hd1, hi1⟩
  · simpa [simulateMarket_length] using hl1
  · simpa [hlenB] using ho1


/-! ### Share conservation -/

theorem settleOrders_conserve {stocks : List Stock} {bot : Bot} {orders : List Order}
    {r : List Stock × Bot} (h : settleOrders stocks bot orders = some r) (i : Nat) :
    inventory r.1 i + r.2.holding i = inventory stocks i + bot.holding i := by
  refine settleOrders_induct
    (fun st b => inventory st i + b.holding i = inventory stocks i + bot.holding i)
    orders ?_ stocks bot r rfl h
  intro st b o r1 _ hP h1
  obtain ⟨_, stock, hs, hr | ⟨held, hh, ⟨_, _, _, hr⟩ | ⟨_, _, hr⟩⟩⟩ := settleOrder_cases h1
  · subst hr; exact hP
  · subst hr; rw [transfer_total hs hh]; exact hP
  · subst hr; rw [transfer_total hs hh]; exact hP

theorem holdingAt_set (objs : List Bot) (p : Nat) (bot b1 : Bot) (i : Nat)
    (hbot : objs[p]? = some bot) :
    ∀ l : List Nat, l.Nodup →
      (l.map (holdingAt (objs.set p b1) i)).sum =
        (l.map (holdingAt objs i)).sum +
          (if p ∈ l then b1.holding i - bot.holding i else 0) := by
  have hlt : p < objs.length := (List.getElem?_eq_some.mp hbot).1
  intro l
  induction l with
  | nil => intro _; simp
  | cons q l ih =>
    intro hnd
    obtain ⟨hq, hnd1⟩ := List.nodup_cons.mp hnd
    rw [List.map_cons, List.sum_cons, List.map_cons, List.sum_cons, ih hnd1]
    by_cases hpq : p = q
    · subst hpq
      have h1 : holdingAt (objs.set p b1) i p = b1.holding i := by
        simp [holdingAt, List.getElem?_set, hlt]
      have h2 : holdingAt objs i p = bot.holding i := by
        simp [holdingAt, hbot]
      rw [h1, h2, if_neg hq, if_pos (List.mem_cons_self _ _)]
      ring
    · have h1 : holdingAt (objs.set p b1) i q = holdingAt objs i q := by
        simp [holdingAt, List.getElem?_set, hpq]
      rw [h1]
      by_cases hpl : p ∈ l
      · rw [if_pos hpl, if_pos (List.mem_cons_of_mem _ hpl)]
        ring
      · rw [if_neg hpl, if_neg (by simp [hpq, hpl])]
        ring

theorem settleBot_conserve {m m1 : Market} {p : Nat} (hnodup : m.bots.Nodup)
    (hp : p ∈ m.bots) (h : settleBot m p = some m1) (i : Nat) :
    inventory m1.stocks i + m1.held i = inventory m.stocks i + m.held i := by
  obtain ⟨bot, st1, b1, hbot, h1, rfl⟩ := settleBot_spec h
  have hc := settleOrders_conserve h1 i
  simp only at hc
  have hs := holdingAt_set m.objs p bot { b1 with orders := [] } i hbot m.bots hnodup
  rw [if_pos hp] at hs
  have hb : Bot.holding { b1 with orders := [] } i = b1.holding i := rfl
  simp only [Market.held]
  rw [hs, hb]
  linarith

theorem processOrders_conserve :
    ∀ (ps : List Nat) (m : Market), (∀ p ∈ ps, p ∈ m.bots) → m.Ready → m.bots.Nodup →
      ∃ m1, processOrders ps m = some m1 ∧ m1.Ready ∧ m1.bots = m.bots ∧
        ∀ i, inventory m1.stocks i + m1.held i = inventory m.stocks i + m.held i := by
  intro ps
  induction ps with
  | nil => intro m _ hready _; exact ⟨m, rfl, hready, rfl, fun _ => rfl⟩
  | cons p ps ih =>
    intro m hsub hready hnodup
    have hp : p ∈ m.bots := hsub p (List.mem_cons_self _ _)
    obtain ⟨m1, hm1⟩ := settleBot_total hready hp
    obtain ⟨hready1, hbots1, _⟩ := settleBot_ready hready hm1
    have hc1 := settleBot_conserve hnodup hp hm1
    obtain ⟨m2, hm2, hready2, hbots2, hc2⟩ :=
      ih m1 (fun q hq => hbots1 ▸ hsub q (List.mem_cons_of_mem _ hq)) hready1
        (hbots1 ▸ hnodup)
    exact ⟨m2, by simp [processOrders, hm1, hm2], hready2, hbots2.trans hbots1,
      fun i => (hc2 i).trans (hc1 i)⟩

theorem holdingAt_congr {objs objs1 : List Bot} (i p : Nat)
    (h : ∀ b, objs[p]? = some b → ∃ b1, objs1[p]? = some b1 ∧ b1.assets = b.assets)
    (hlen : objs1.length = objs.length) :
    holdingAt objs1 i p = holdingAt objs i p := by
  unfold holdingAt
  cases hb : objs[p]? with
  | none =>
    have : objs1[p]? = none := by
      rw [List.getElem?_eq_none_iff] at hb ⊢
      omega
    rw [this]
  | some b =>
    obtain ⟨b1, hb1, ha⟩ := h b hb
    rw [hb1]
    simp [Bot.holding, ha]

theorem simulate_conserve (z : Nat → ℚ) (trade : Strategy) (m : Market)
    (hready : m.Ready) (hnodup : m.bots.Nodup) (hin : trade.InRange) :
    ∃ m1, simulate z trade m = some m1 ∧ m1.Ready ∧ m1.bots = m.bots ∧
      ∀ i, inventory m1.stocks i + m1.held i = inventory m.stocks i + m.held i := by
  obtain ⟨objs1, _, hsim, hreadyB, hlenB, hrel⟩ :=
    simulate_phases (fun _ => True) z trade m hready hin (fun _ _ _ _ _ => trivial)
  obtain ⟨m1, hm1, hr1, hb1, hc1⟩ := processOrders_conserve m.bots
    { m with stocks := simulateMarket z 0 m.stocks, objs := objs1, day := m.day + 1 }
    (fun p hp => hp) hreadyB hnodup
  refine ⟨m1, by rw [hsim]; exact hm1, hr1, hb1, fun i => ?_⟩
  rw [hc1 i]
  simp only [Market.held]
  rw [simulateMarket_amount]
  congr 2
  apply List.map_congr_left
  intro p _
  apply holdingAt_congr _ _ _ hlenB
  intro b hb
  obtain ⟨b1, hb1, hR⟩ := hrel p b hb
  exact ⟨b1, hb1, hR.2.2.2.1⟩

/-! ### Order-level facts for the sign invariants -/

theorem settleOrder_price {st : List Stock} {b : Bot} {o : Order} {r : List Stock × Bot}
    (h : settleOrder st b o = some r) : r.1.map Stock.price = st.map Stock.price := by
  obtain ⟨_, stock, hs, hr | ⟨held, hh, ⟨_, _, _, hr⟩ | ⟨_, _, hr⟩⟩⟩ := settleOrder_cases h
  · subst hr; rfl
  · subst hr; exact transfer_price hs
  · subst hr; exact transfer_price hs

theorem settleOrder_cash {st : List Stock} {b : Bot} {o : Order} {r : List Stock × Bot}
    (ho : 0 < o.amount) (hS : ∀ x ∈ st.map Stock.price, 0 ≤ x) (hb : 0 ≤ b.money)
    (h : settleOrder st b o = some r) : 0 ≤ r.2.money := by
  obtain ⟨_, stock, hs, hr | ⟨held, hh, ⟨_, _, hcost, hr⟩ | ⟨_, _, hr⟩⟩⟩ := settleOrder_cases h
  · subst hr; exact hb
  · subst hr
    simp only [transfer]
    omega
  · subst hr
    have hp : 0 ≤ stock.price :=
      hS _ (List.mem_map.mpr ⟨stock, List.getElem?_mem hs, rfl⟩)
    have := mul_nonneg (le_of_lt ho) hp
    simp only [transfer, neg_mul, sub_neg_eq_add]
    omega

theorem settleOrder_shares {st : List Stock} {b : Bot} {o : Order} {r : List Stock × Bot}
    (ho : 0 < o.amount) (hS : ∀ s ∈ st, 0 ≤ s.amount) (hb : ∀ a ∈ b.assets, 0 ≤ a)
    (h : settleOrder st b o = some r) :
    (∀ s ∈ r.1, 0 ≤ s.amount) ∧ ∀ a ∈ r.2.assets, 0 ≤ a := by
  obtain ⟨_, stock, hs, hr | ⟨held, hh, ⟨_, hinv, _, hr⟩ | ⟨_, hheld, hr⟩⟩⟩ :=
    settleOrder_cases h
  · subst hr; exact ⟨hS, hb⟩
  · subst hr
    have h0 : 0 ≤ held := hb _ (List.getElem?_mem hh)
    constructor
    · intro s hmem
      rcases List.mem_or_eq_of_mem_set hmem with h1 | h1
      · exact hS s h1
      · subst h1; simp only; omega
    · intro a hmem
      rcases List.mem_or_eq_of_mem_set hmem with h1 | h1
      · exact hb a h1
      · omega
  · subst hr
    have h0 : 0 ≤ stock.amount := hS _ (List.getElem?_mem hs)
    constructor
    · intro s hmem
      rcases List.mem_or_eq_of_mem_set hmem with h1 | h1
      · exact hS s h1
      · subst h1; simp only; omega
    · intro a hmem
      rcases List.mem_or_eq_of_mem_set hmem with h1 | h1
      · exact hb a h1
      · omega

/-! ### Days, sign invariants, prices, idle bots -/

theorem simulateDays_single (z : Nat → ℚ) (trade : Strategy) (m : Market) :
    simulateDays [(z, trade)] m = simulate z trade m := by
  simp only [simulateDays]
  cases simulate z trade m <;> rfl

/-- Induction over the days of a run, for the properties handled by `simulate_pred`. -/
theorem simulateDays_pred (S : List Stock → Prop) (Q : Bot → Prop) (V : Order → Prop)
    (hclear : ∀ b, Q b → Q { b with orders := [] })
    (hord : ∀ st b o r, o ∈ b.orders → S st → Q b → settleOrder st b o = some r →
      S r.1 ∧ Q r.2)
    (htr : ∀ b b1, TradeRel V b b1 → Q b → Q b1)
    (hA : ∀ z st, S st → S (simulateMarket z 0 st)) :
    ∀ (days : List ((Nat → ℚ) × Strategy)) (m : Market), m.Ready →
      (∀ d ∈ days, d.2.InRange ∧ ∀ k bot stocks, ∀ c ∈ d.2 k bot stocks, V c.toOrder) →
      S m.stocks → (∀ p ∈ m.bots, ∀ bot, m.objs[p]? = some bot → Q bot) →
      ∃ m1, simulateDays days m = some m1 ∧ m1.Ready ∧ S m1.stocks ∧
        (∀ p ∈ m1.bots, ∀ bot, m1.objs[p]? = some bot → Q bot) ∧ m1.bots = m.bots ∧
        m1.day = m.day + days.length := by
  intro days
  induction days with
  | nil =>
    intro m hready _ hS hQ
    exact ⟨m, rfl, hready, hS, hQ, rfl, by simp⟩
  | cons d rest ih =>
    intro m hready hdays hS hQ
    obtain ⟨z, trade⟩ := d
    obtain ⟨hin, hV⟩ := hdays (z, trade) (List.mem_cons_self _ _)
    obtain ⟨m1, hm1, hr1, hS1, hQ1, hb1, _, _, hd1, _⟩ :=
      simulate_pred S Q V hclear hord htr z trade m hready hin hV (hA z _ hS) hQ
    obtain ⟨m2, hm2, hr2, hS2, hQ2, hb2, hd2⟩ :=
      ih m1 hr1 (fun d hd => hdays d (List.mem_cons_of_mem _ hd)) hS1 hQ1
    refine ⟨m2, by simp [simulateDays, hm1, hm2], hr2, hS2, hQ2, hb2.trans hb1, ?_⟩
    rw [hd2, hd1]
    simp only [List.length_cons, Nat.cast_add, Nat.cast_one]
    ring

theorem simulateDays_conserve :
    ∀ (days : List ((Nat → ℚ) × Strategy)) (m : Market), m.Ready → m.bots.Nodup →
      (∀ d ∈ days, d.2.InRange) →
      ∃ m1, simulateDays days m = some m1 ∧
        ∀ i, inventory m1.stocks i + m1.held i = inventory m.stocks i + m.held i := by
  intro days
  induction days with
  | nil => intro m _ _ _; exact ⟨m, rfl, fun _ => rfl⟩
  | cons d rest ih =>
    intro m hready hnodup hdays
    obtain ⟨z, trade⟩ := d
    obtain ⟨m1, hm1, hr1, hb1, hc1⟩ :=
      simulate_conserve z trade m hready hnodup (hdays (z, trade) (List.mem_cons_self _ _))
    obtain ⟨m2, hm2, hc2⟩ :=
      ih m1 hr1 (hb1 ▸ hnodup) (fun d hd => hdays d (List.mem_cons_of_mem _ hd))
    exact ⟨m2, by simp [simulateDays, hm1, hm2], fun i => (hc2 i).trans (hc1 i)⟩

theorem cash_hord (st : List Stock) (b : Bot) (o : Order) (r : List Stock × Bot)
    (ho : o ∈ b.orders) (hS : ∀ x ∈ st.map Stock.price, 0 ≤ x)
    (hQ : 0 ≤ b.money ∧ ∀ o ∈ b.orders, 0 < o.amount)
    (h : settleOrder st b o = some r) :
    (∀ x ∈ r.1.map Stock.price, 0 ≤ x) ∧ (0 ≤ r.2.money ∧ ∀ o ∈ r.2.orders, 0 < o.amount) := by
  refine ⟨?_, settleOrder_cash (hQ.2 o ho) hS hQ.1 h, ?_⟩
  · rw [settleOrder_price h]; exact hS
  · rw [(settleOrder_length h).2.2]; exact hQ.2

theorem cash_htr (b b1 : Bot) (hR : TradeRel (fun o => 0 < o.amount) b b1)
    (hQ : 0 ≤ b.money ∧ ∀ o ∈ b.orders, 0 < o.amount) :
    0 ≤ b1.money ∧ ∀ o ∈ b1.orders, 0 < o.amount := by
  obtain ⟨_, hm, _, _, extra, ho, hextra⟩ := hR
  refine ⟨hm ▸ hQ.1, ?_⟩
  intro o hmem
  rw [ho] at hmem
  rcases List.mem_append.mp hmem with h | h
  · exact hQ.2 o h
  · exact hextra o h

theorem shares_hord (st : List Stock) (b : Bot) (o : Order) (r : List Stock × Bot)
    (ho : o ∈ b.orders) (hS : ∀ s ∈ st, 0 ≤ s.amount)
    (hQ : (∀ a ∈ b.assets, 0 ≤ a) ∧ ∀ o ∈ b.orders, 0 < o.amount)
    (h : settleOrder st b o = some r) :
    (∀ s ∈ r.1, 0 ≤ s.amount) ∧
      ((∀ a ∈ r.2.assets, 0 ≤ a) ∧ ∀ o ∈ r.2.orders, 0 < o.amount) := by
  obtain ⟨h1, h2⟩ := settleOrder_shares (hQ.2 o ho) hS hQ.1 h
  refine ⟨h1, h2, ?_⟩
  rw [(settleOrder_length h).2.2]; exact hQ.2

theorem shares_htr (b b1 : Bot) (hR : TradeRel (fun o => 0 < o.amount) b b1)
    (hQ : (∀ a ∈ b.assets, 0 ≤ a) ∧ ∀ o ∈ b.orders, 0 < o.amount) :
    (∀ a ∈ b1.assets, 0 ≤ a) ∧ ∀ o ∈ b1.orders, 0 < o.amount := by
  obtain ⟨_, _, _, ha, extra, ho, hextra⟩ := hR
  refine ⟨ha ▸ hQ.1, ?_⟩
  intro o hmem
  rw [ho] at hmem
  rcases List.mem_append.mp hmem with h | h
  · exact hQ.2 o h
  · exact hextra o h

theorem simulateMarket_amount_nonneg (z : Nat → ℚ) (stocks : List Stock) (k : Nat)
    (h : ∀ s ∈ stocks, 0 ≤ s.amount) : ∀ s ∈ simulateMarket z k stocks, 0 ≤ s.amount := by
  intro s1 h1
  obtain ⟨s, hs, ⟨_, h2⟩ | ⟨_, j, h2⟩⟩ := simulateMarket_mem z stocks k s1 h1
  · rw [h2]; exact h s hs
  · rw [h2]; exact h s hs

theorem price_lookup {st : List Stock} {i : Nat} {x : Int} :
    (st.map Stock.price)[i]? = some x ↔ ∃ s, st[i]? = some s ∧ s.price = x := by
  simp [List.getElem?_map, Option.map_eq_some']

theorem simulateMarket_dead (z : Nat → ℚ) (st : List Stock) (k i : Nat)
    (h : (st.map Stock.price)[i]? = some 0) :
    ((simulateMarket z k st).map Stock.price)[i]? = some 0 := by
  obtain ⟨s, hs, h0⟩ := price_lookup.mp h
  obtain ⟨s1, h1, ⟨_, h2⟩ | ⟨hne, _⟩⟩ := simulateMarket_getElem? z st k i s hs
  · exact price_lookup.mpr ⟨s1, h1, h2 ▸ h0⟩
  · exact absurd h0 hne

theorem roundHalfAway_zero : roundHalfAway 0 = 0 := by
  simp [roundHalfAway]
  norm_num [Int.floor_eq_zero_iff]

theorem priceIncrement_flat (stock : Stock) (z : ℚ) (hd : stock.drift = 0)
    (hv : stock.deviation = 0) : priceIncrement stock z = 0 := by
  simp [priceIncrement, hd, hv, roundHalfAway_zero]

theorem buyThenSell_run (p c n : Int) (z1 z2 : Nat → ℚ) (hp : 0 ≤ p) (hn : 3 ≤ n) (hc : 3 * p ≤ c) :
    simulateDays [(z1, buyThree), (z2, sellTwo)] (scenarioMarket p c n) =
      some { stocks := [⟨0, p, n - 1, 0, 0⟩],
             objs := [⟨"MyBot", c - 3 * p + 2 * p, [0], [1], [], 2⟩], bots := [0],
             day := 2, initial := c } := by
  have hA : ∀ (z : Nat → ℚ) (a : Int),
      simulateMarket z 0 [(⟨0, p, a, 0, 0⟩ : Stock)] = [⟨0, p, a, 0, 0⟩] := by
    intro z a
    simp only [simulateMarket]
    split_ifs with h0
    · rfl
    · rw [priceIncrement_flat _ _ rfl rfl]
      simp [applyIncrement]
      omega
  have h1 : ¬ n < 3 := by omega
  have h2 : ¬ c < 3 * p := by omega
  simp [simulateDays, simulate, scenarioMarket, hA, tradeBots, buyThree, sellTwo, Bot.submit,
    Bot.buy, Bot.sell, settle, processOrders, settleBot, settleOrders, settleOrder,
    Order.Buy, Order.Sell, h1, h2]
  omega

theorem transfer_obs {stocks : List Stock} {bot : Bot} {k : Nat} {stock : Stock}
    {held d : Int} (hs : stocks[k]? = some stock) (hh : bot.assets[k]? = some held) :
    inventory (transfer stocks bot k stock held d).1 k = stock.amount - d ∧
    (transfer stocks bot k stock held d).2.holding k = held + d ∧
    (transfer stocks bot k stock held d).2.money = bot.money - d * stock.price ∧
    ∀ j : Nat, j ≠ k →
      (transfer stocks bot k stock held d).1[j]? = stocks[j]? ∧
      (transfer stocks bot k stock held d).2.assets[j]? = bot.assets[j]? := by
  have hk : k < stocks.length := (List.getElem?_eq_some.mp hs).1
  have hk2 : k < bot.assets.length := (List.getElem?_eq_some.mp hh).1
  refine ⟨by simp [transfer, inventory, List.getElem?_set, hk],
    by simp [transfer, Bot.holding, List.getElem?_set, hk2], rfl, ?_⟩
  intro j hj
  have hkj : ¬ k = j := fun h => hj h.symm
  simp [transfer, List.getElem?_set, hkj]

theorem set_same {α : Type} (l : List α) (p : Nat) (a : α) (h : l[p]? = some a) :
    l.set p a = l := by
  apply List.ext_getElem?
  intro i
  by_cases hpi : p = i
  · subst hpi
    simp [List.getElem?_set, (List.getElem?_eq_some.mp h).1, h]
  · simp [List.getElem?_set, hpi]

theorem processOrders_append (ps qs : List Nat) (m : Market) :
    processOrders (ps ++ qs) m =
      match processOrders ps m with
      | none => none
      | some m1 => processOrders qs m1 := by
  induction ps generalizing m with
  | nil => rfl
  | cons p ps ih =>
    simp only [List.cons_append, processOrders]
    cases settleBot m p with
    | none => rfl
    | some m1 => exact ih m1

theorem settleOrder_frame {st : List Stock} {b : Bot} {o : Order} {r : List Stock × Bot}
    (k : Nat) (hk : o.id.toNat ≠ k) (h : settleOrder st b o = some r) : r.1[k]? = st[k]? := by
  obtain ⟨_, stock, hs, hr | ⟨held, hh, ⟨_, _, _, hr⟩ | ⟨_, _, hr⟩⟩⟩ := settleOrder_cases h
  · subst hr; rfl
  · subst hr; simp [transfer, List.getElem?_set, hk]
  · subst hr; simp [transfer, List.getElem?_set, hk]

/-- Settling bots whose orders all avoid stock `k` leaves that stock and every other bot
object as they are. -/
theorem processOrders_frame (k : Nat) :
    ∀ (ps : List Nat) (m : Market), m.Ready → (∀ p ∈ ps, p ∈ m.bots) →
      (∀ p ∈ ps, ∀ bot, m.objs[p]? = some bot → ∀ o ∈ bot.orders, o.id.toNat ≠ k) →
      ∃ m1, processOrders ps m = some m1 ∧ m1.Ready ∧ m1.bots = m.bots ∧
        m1.stocks[k]? = m.stocks[k]? ∧ ∀ q, q ∉ ps → m1.objs[q]? = m.objs[q]? := by
  intro ps
  induction ps with
  | nil =>
    intro m hready _ _
    exact ⟨m, rfl, hready, rfl, rfl, fun _ _ => rfl⟩
  | cons p ps ih =>
    intro m hready hsub havoid
    have hp : p ∈ m.bots := hsub p (List.mem_cons_self _ _)
    obtain ⟨m1, hm1⟩ := settleBot_total hready hp
    obtain ⟨hready1, hbots1, _⟩ := settleBot_ready hready hm1
    obtain ⟨bot, st1, b1, hbot, h1, hm1eq⟩ := settleBot_spec hm1
    have hst : st1[k]? = m.stocks[k]? := by
      refine settleOrders_induct (fun st _ => st[k]? = m.stocks[k]?) bot.orders ?_
        m.stocks bot (st1, b1) rfl h1
      intro st b o r ho hP hr
      exact (settleOrder_frame k (havoid p (List.mem_cons_self _ _) bot hbot o ho) hr).trans hP
    have havoid1 : ∀ q ∈ ps, ∀ b, m1.objs[q]? = some b → ∀ o ∈ b.orders, o.id.toNat ≠ k := by
      intro q hq b hb
      rcases settleBot_lookup hm1 hb with ⟨_, hb0⟩ | ⟨_, _, _, _, _, _, _, rfl⟩
      · exact havoid q (List.mem_cons_of_mem _ hq) b hb0
      · intro o ho; simp at ho
    obtain ⟨m2, hm2, hready2, hbots2, hst2, hobjs2⟩ :=
      ih m1 hready1 (fun q hq => hbots1 ▸ hsub q (List.mem_cons_of_mem _ hq)) havoid1
    refine ⟨m2, by simp [processOrders, hm1, hm2], hready2, hbots2.trans hbots1, ?_, ?_⟩
    · rw [hst2, hm1eq]; exact hst
    · intro q hq
      have hqp : ¬ p = q := fun h => hq (h ▸ List.mem_cons_self _ _)
      have hqps : q ∉ ps := fun h => hq (List.mem_cons_of_mem _ h)
      rw [hobjs2 q hqps, hm1eq]
      simp [List.getElem?_set, hqp]

/-- Settlement leaves a bot object as it was or with an empty queue. -/
theorem processOrders_kept :
    ∀ (ps : List Nat) (m m1 : Market), processOrders ps m = some m1 →
      ∀ (q : Nat) (b1 : Bot), m1.objs[q]? = some b1 →
        m.objs[q]? = some b1 ∨ b1.orders = [] := by
  intro ps
  induction ps with
  | nil =>
    intro m m1 h q b1 hb1
    simp only [processOrders, Option.some.injEq] at h
    subst h
    exact Or.inl hb1
  | cons p ps ih =>
    intro m m1 h q b1 hb1
    simp only [processOrders] at h
    cases hstep : settleBot m p with
    | none => simp [hstep] at h
    | some m2 =>
      simp only [hstep] at h
      rcases ih m2 m1 h q b1 hb1 with h2 | h2
      · rcases settleBot_lookup hstep h2 with ⟨_, h3⟩ | ⟨_, _, _, _, _, _, _, rfl⟩
        · exact Or.inl h3
        · exact Or.inr rfl
      · exact Or.inr h2

theorem nodup_split {pre mid post : List Nat} {a b : Nat}
    (h : (pre ++ [a] ++ mid ++ [b] ++ post).Nodup) :
    a ≠ b ∧ a ∉ pre ∧ a ∉ mid ∧ a ∉ post ∧ b ∉ pre ∧ b ∉ mid ∧ b ∉ post := by
  simp only [List.nodup_append, List.nodup_cons, List.mem_append, List.mem_singleton,
    List.mem_cons, List.disjoint_left] at h
  obtain ⟨⟨⟨⟨_, _, hpre⟩, _, hmid⟩, _, hb⟩, _, hpost⟩ := h
  refine ⟨?_, ?_, hmid (Or.inr (Or.inl rfl)), hpost (Or.inl (Or.inl (Or.inr (Or.inl rfl)))),
    ?_, ?_, hpost (Or.inr (Or.inl rfl))⟩
  · intro hab
    exact hb (Or.inl (Or.inr (Or.inl rfl))) (Or.inl hab)
  · intro ha
    exact hpre ha (Or.inl rfl)
  · intro hbp
    exact hb (Or.inl (Or.inl hbp)) (Or.inl rfl)
  · intro hbm
    exact hb (Or.inr hbm) (Or.inl rfl)

theorem settleOrder_out_of_range {stocks : List Stock} {bot : Bot} {order : Order}
    (hout : order.id < 0 ∨ (stocks.length : Int) ≤ order.id) :
    settleOrder stocks bot order = none := by
  by_cases h : order.id < 0
  · simp [settleOrder, h]
  · have hnone : stocks[order.id.toNat]? = none := by
      rw [List.getElem?_eq_none_iff]
      omega
    simp [settleOrder, h, hnone]

theorem settleOrders_out_of_range (order : Order) (after : List Order) :
    ∀ (before : List Order) (stocks : List Stock) (bot : Bot),
      (order.id < 0 ∨ (stocks.length : Int) ≤ order.id) →
      settleOrders stocks bot (before ++ order :: after) = none := by
  intro before
  induction before with
  | nil =>
    intro stocks bot hout
    simp [settleOrders, settleOrder_out_of_range hout]
  | cons o rest ih =>
    intro stocks bot hout
    simp only [List.cons_append, settleOrders]
    cases h : settleOrder stocks bot o with
    | none => rfl
    | some r =>
      obtain ⟨st1, b1⟩ := r
      have hlen := (settleOrder_length h).1
      simp only at hlen
      exact ih st1 b1 (by rw [hlen]; exact hout)

theorem demoTrade_inRange : demoTrade.InRange := by
  intro k bot stocks c hc
  cases stocks with
  | nil => simp [demoTrade] at hc
  | cons s rest =>
    simp only [demoTrade, List.mem_cons, List.mem_singleton, List.not_mem_nil, or_false] at hc
    rcases hc with rfl | rfl <;> simp [Call.toOrder]

theorem demoTrade_positive : demoTrade.Positive := by
  intro k bot stocks c hc
  cases stocks with
  | nil => simp [demoTrade] at hc
  | cons s rest =>
    simp only [demoTrade, List.mem_cons, List.mem_singleton, List.not_mem_nil, or_false] at hc
    rcases hc with rfl | rfl <;> simp [Call.toOrder]

theorem demoDays_inRange : ∀ d ∈ demoDays, Strategy.InRange d.2 := by
  intro d hd
  simp only [demoDays, List.mem_cons, List.mem_singleton, List.not_mem_nil, or_false] at hd
  rcases hd with rfl | rfl <;> exact demoTrade_inRange


/-! ## The claims -/

/-- C1. Share conservation: for a market with distinct registered bots, initialised
holdings and pending orders with in-range stock ids, a `simulate()` call returns, and for
every stock `i` the inventory plus the holdings of all bots is the same after the call as
before it, for every sample stream and every strategy that orders in-range stocks; the same
holds over any number of days, so the total equals the initial inventory when the bots
started with none of the stock. -/
theorem share_conservation (z : Nat → ℚ) (trade : Strategy)
    (days : List ((Nat → ℚ) × Strategy)) (m : Market)
    (hnodup : m.bots.Nodup) (hready : m.Ready) (hin : trade.InRange)
    (hdays : ∀ d ∈ days, d.2.InRange) :
    (∃ m1, simulate z trade m = some m1 ∧
      ∀ i, inventory m1.stocks i + m1.held i = inventory m.stocks i + m.held i) ∧
    (∃ mN, simulateDays days m = some mN ∧
      ∀ i, inventory mN.stocks i + mN.held i = inventory m.stocks i + m.held i ∧
        (m.held i = 0 → inventory mN.stocks i + mN.held i = inventory m.stocks i)) := by
  constructor
  · obtain ⟨m1, hm1, _, _, hc⟩ := simulate_conserve z trade m hready hnodup hin
    exact ⟨m1, hm1, hc⟩
  · obtain ⟨mN, hmN, hc⟩ := simulateDays_conserve days m hready hnodup hdays
    exact ⟨mN, hmN, fun i => ⟨hc i, fun h0 => by rw [hc i, h0, add_zero]⟩⟩

/-- C1, instance: `demoMarket` for one day and for two days. -/
theorem share_conservation_witness :
    demoMarket.bots.Nodup ∧ demoMarket.Ready ∧
    ((∃ m1, simulate demoDraws demoTrade demoMarket = some m1 ∧
      ∀ i, inventory m1.stocks i + m1.held i =
        inventory demoMarket.stocks i + demoMarket.held i) ∧
    (∃ mN, simulateDays demoDays demoMarket = some mN ∧
      ∀ i, inventory mN.stocks i + mN.held i =
          inventory demoMarket.stocks i + demoMarket.held i ∧
        (demoMarket.held i = 0 →
          inventory mN.stocks i + mN.held i = inventory demoMarket.stocks i))) :=
  ⟨by decide, by decide,
    share_conservation demoDraws demoTrade demoDays demoMarket
      (by decide) (by decide) demoTrade_inRange demoDays_inRange⟩

/-- C2. Non-negative cash: in a market whose registered bots have cash >= 0, whose stock
prices are >= 0 and whose pending orders have in-range stock ids and quantity > 0,
settlement returns and leaves every registered bot with cash >= 0; so does a whole
`simulate()` call, for every sample stream and every strategy that orders in-range stocks
in positive quantities. -/
theorem cash_nonneg (z : Nat → ℚ) (trade : Strategy) (m : Market)
    (hready : m.Ready) (hqueue : m.OrdersPositive) (hcash : m.CashNonneg)
    (hprice : m.PricesNonneg) (hin : trade.InRange) (hpos : trade.Positive) :
    (∃ m1, settle m = some m1 ∧ m1.CashNonneg) ∧
    (∃ m1, simulate z trade m = some m1 ∧ m1.CashNonneg) := by
  have hQ : ∀ p ∈ m.bots, ∀ bot, m.objs[p]? = some bot →
      0 ≤ bot.money ∧ ∀ o ∈ bot.orders, 0 < o.amount :=
    fun p hp bot hbot => ⟨hcash p hp bot hbot, hqueue p hp bot hbot⟩
  constructor
  · obtain ⟨m1, hm1, _, _, hQ1, _⟩ :=
      processOrders_pred (fun st => ∀ x ∈ st.map Stock.price, 0 ≤ x)
        (fun b => 0 ≤ b.money ∧ ∀ o ∈ b.orders, 0 < o.amount)
        (fun b hb => ⟨hb.1, by simp⟩) cash_hord m.bots m (fun p hp => hp) hready
        (fun x hx => by
          obtain ⟨s, hs, rfl⟩ := List.mem_map.mp hx
          exact hprice s hs) hQ
    exact ⟨m1, hm1, fun p hp bot hbot => (hQ1 p hp bot hbot).1⟩
  · obtain ⟨m1, hm1, _, _, hQ1, _⟩ :=
      simulate_pred (fun st => ∀ x ∈ st.map Stock.price, 0 ≤ x)
        (fun b => 0 ≤ b.money ∧ ∀ o ∈ b.orders, 0 < o.amount) (fun o => 0 < o.amount)
        (fun b hb => ⟨hb.1, by simp⟩) cash_hord cash_htr z trade m hready hin hpos
        (fun x hx => by
          obtain ⟨s, hs, rfl⟩ := List.mem_map.mp hx
          exact simulateMarket_price_nonneg z m.stocks 0 s hs) hQ
    exact ⟨m1, hm1, fun p hp bot hbot => (hQ1 p hp bot hbot).1⟩

/-- C2, instance: `demoMarket` with the strategy `demoTrade`. -/
theorem cash_nonneg_witness :
    demoMarket.Ready ∧ demoMarket.OrdersPositive ∧ demoMarket.CashNonneg ∧
    demoMarket.PricesNonneg ∧
    ((∃ m1, settle demoMarket = some m1 ∧ m1.CashNonneg) ∧
     (∃ m1, simulate demoDraws demoTrade demoMarket = some m1 ∧ m1.CashNonneg)) :=
  ⟨by decide, by decide, by decide, by decide,
    cash_nonneg demoDraws demoTrade demoMarket (by decide) (by decide) (by decide)
      (by decide) demoTrade_inRange demoTrade_positive⟩

/-- C3. Non-negative holdings and inventory: in a market whose stock inventories and bot
holdings are >= 0 and whose pending orders have in-range stock ids and quantity > 0,
settlement returns and leaves every inventory and every holding of a registered bot >= 0;
so does a whole `simulate()` call, for every sample stream and every strategy that orders
in-range stocks in positive quantities. -/
theorem shares_nonneg (z : Nat → ℚ) (trade : Strategy) (m : Market)
    (hready : m.Ready) (hqueue : m.OrdersPositive) (hshares : m.SharesNonneg)
    (hin : trade.InRange) (hpos : trade.Positive) :
    (∃ m1, settle m = some m1 ∧ m1.SharesNonneg) ∧
    (∃ m1, simulate z trade m = some m1 ∧ m1.SharesNonneg) := by
  have hQ : ∀ p ∈ m.bots, ∀ bot, m.objs[p]? = some bot →
      (∀ a ∈ bot.assets, 0 ≤ a) ∧ ∀ o ∈ bot.orders, 0 < o.amount :=
    fun p hp bot hbot => ⟨hshares.2 p hp bot hbot, hqueue p hp bot hbot⟩
  constructor
  · obtain ⟨m1, hm1, _, hS1, hQ1, _⟩ :=
      processOrders_pred (fun st => ∀ s ∈ st, 0 ≤ s.amount)
        (fun b => (∀ a ∈ b.assets, 0 ≤ a) ∧ ∀ o ∈ b.orders, 0 < o.amount)
        (fun b hb => ⟨hb.1, by simp⟩) shares_hord m.bots m (fun p hp => hp) hready
        hshares.1 hQ
    exact ⟨m1, hm1, hS1, fun p hp bot hbot => (hQ1 p hp bot hbot).1⟩
  · obtain ⟨m1, hm1, _, hS1, hQ1, _⟩ :=
      simulate_pred (fun st => ∀ s ∈ st, 0 ≤ s.amount)
        (fun b => (∀ a ∈ b.assets, 0 ≤ a) ∧ ∀ o ∈ b.orders, 0 < o.amount)
        (fun o => 0 < o.amount)
        (fun b hb => ⟨hb.1, by simp⟩) shares_hord shares_htr z trade m hready hin hpos
        (simulateMarket_amount_nonneg z m.stocks 0 hshares.1) hQ
    exact ⟨m1, hm1, hS1, fun p hp bot hbot => (hQ1 p hp bot hbot).1⟩

/-- C3, instance: `demoMarket` with the strategy `demoTrade`. -/
theorem shares_nonneg_witness :
    demoMarket.Ready ∧ demoMarket.OrdersPositive ∧ demoMarket.SharesNonneg ∧
    ((∃ m1, settle demoMarket = some m1 ∧ m1.SharesNonneg) ∧
     (∃ m1, simulate demoDraws demoTrade demoMarket = some m1 ∧ m1.SharesNonneg)) :=
  ⟨by decide, by decide, by decide,
    shares_nonneg demoDraws demoTrade demoMarket (by decide) (by decide) (by decide)
      demoTrade_inRange demoTrade_positive⟩

/-- C4. Dead-stock stickiness: a stock whose price is 0 has price 0 after a `simulate()`
call and after any number of further calls, for every sample stream, every drift and
deviation of the stock and every strategy that orders in-range stocks (the market being
initialised, so that the calls return). -/
theorem dead_stock_sticky (z : Nat → ℚ) (trade : Strategy)
    (days : List ((Nat → ℚ) × Strategy)) (m : Market) (i : Nat) (stock : Stock)
    (hready : m.Ready) (hin : trade.InRange) (hdays : ∀ d ∈ days, d.2.InRange)
    (hstock : m.stocks[i]? = some stock) (hdead : stock.price = 0) :
    (∃ m1 s1, simulate z trade m = some m1 ∧ m1.stocks[i]? = some s1 ∧ s1.price = 0) ∧
    (∃ mN sN, simulateDays days m = some mN ∧ mN.stocks[i]? = some sN ∧ sN.price = 0) := by
  have key : ∀ ds : List ((Nat → ℚ) × Strategy), (∀ d ∈ ds, d.2.InRange) →
      ∃ mN sN, simulateDays ds m = some mN ∧ mN.stocks[i]? = some sN ∧ sN.price = 0 := by
    intro ds hds
    obtain ⟨mN, hmN, _, hS, _⟩ :=
      simulateDays_pred (fun st => (st.map Stock.price)[i]? = some 0) (fun _ => True)
        (fun _ => True) (fun _ _ => trivial)
        (fun st b o r _ hS _ h => ⟨by simpa only [settleOrder_price h] using hS, trivial⟩)
        (fun _ _ _ _ => trivial) (fun z st hS => simulateMarket_dead z st 0 i hS)
        ds m hready (fun d hd => ⟨hds d hd, fun _ _ _ _ _ => trivial⟩)
        (price_lookup.mpr ⟨stock, hstock, hdead⟩) (fun _ _ _ _ => trivial)
    obtain ⟨sN, hsN, h0⟩ := price_lookup.mp hS
    exact ⟨mN, sN, hmN, hsN, h0⟩
  refine ⟨?_, key days hdays⟩
  have h1 := key [(z, trade)] (fun d hd => by
    simp only [List.mem_singleton] at hd
    subst hd
    exact hin)
  rwa [simulateDays_single] at h1

/-- C4, instance: stock 0 of `deadMarket`, on which a buy order is pending. -/
theorem dead_stock_sticky_witness :
    deadMarket.Ready ∧ deadMarket.stocks[0]? = some ⟨0, 0, 120, 1 / 50, 1 / 100⟩ ∧
    ((∃ m1 s1, simulate demoDraws demoTrade deadMarket = some m1 ∧
        m1.stocks[0]? = some s1 ∧ s1.price = 0) ∧
     (∃ mN sN, simulateDays demoDays deadMarket = some mN ∧
        mN.stocks[0]? = some sN ∧ sN.price = 0)) :=
  ⟨by decide, rfl,
    dead_stock_sticky demoDraws demoTrade demoDays deadMarket 0 ⟨0, 0, 120, 1 / 50, 1 / 100⟩
      (by decide) demoTrade_inRange demoDays_inRange rfl rfl⟩

/-- C5. Non-negative price: adding any integer increment `delta` to a stock's price in
phase A gives `max 0 (price + delta)`, which is 0 when `price + delta` is negative; after a
`simulate()` call every stock's price is >= 0, a dead stock has price 0 and a live stock
has price `max 0 (price + delta)` for the increment `delta` computed from one sample. -/
theorem price_nonneg (z : Nat → ℚ) (trade : Strategy) (m : Market) (stock : Stock)
    (delta : Int) (hready : m.Ready) (hin : trade.InRange) :
    (applyIncrement stock delta).price = max 0 (stock.price + delta) ∧
    (stock.price + delta < 0 → (applyIncrement stock delta).price = 0) ∧
    ∃ m1, simulate z trade m = some m1 ∧ (∀ s ∈ m1.stocks, 0 ≤ s.price) ∧
      ∀ (i : Nat) (s : Stock), m.stocks[i]? = some s →
        ∃ s1, m1.stocks[i]? = some s1 ∧ (s.price = 0 → s1.price = 0) ∧
          (s.price ≠ 0 → ∃ j, s1.price = max 0 (s.price + priceIncrement s (z j))) := by
  refine ⟨applyIncrement_price stock delta, ?_, ?_⟩
  · intro h
    rw [applyIncrement_price, max_eq_left (le_of_lt h)]
  · obtain ⟨m1, hm1, _, hS, _⟩ :=
      simulate_pred
        (fun st => st.map Stock.price = (simulateMarket z 0 m.stocks).map Stock.price)
        (fun _ => True) (fun _ => True) (fun _ _ => trivial)
        (fun st b o r _ hS _ h => ⟨by simpa only [settleOrder_price h] using hS, trivial⟩)
        (fun _ _ _ _ => trivial) z trade m hready hin (fun _ _ _ _ _ => trivial) rfl
        (fun _ _ _ _ => trivial)
    refine ⟨m1, hm1, ?_, ?_⟩
    · intro s hs
      have hmem : s.price ∈ m1.stocks.map Stock.price := List.mem_map.mpr ⟨s, hs, rfl⟩
      rw [hS] at hmem
      obtain ⟨s0, hs0, h0⟩ := List.mem_map.mp hmem
      rw [← h0]
      exact simulateMarket_price_nonneg z m.stocks 0 s0 hs0
    · intro i s hs
      obtain ⟨sA, hA, hcase⟩ := simulateMarket_getElem? z m.stocks 0 i s hs
      have hlook : (m1.stocks.map Stock.price)[i]? = some sA.price := by
        rw [hS]; exact price_lookup.mpr ⟨sA, hA, rfl⟩
      obtain ⟨s1, hs1, hp1⟩ := price_lookup.mp hlook
      refine ⟨s1, hs1, ?_, ?_⟩
      · intro h0
        rcases hcase with ⟨_, h2⟩ | ⟨hne, _⟩
        · rw [hp1, h2]; exact h0
        · exact absurd h0 hne
      · intro hne
        rcases hcase with ⟨h0, _⟩ | ⟨_, j, h2⟩
        · exact absurd h0 hne
        · exact ⟨j, by rw [hp1, h2, applyIncrement_price]⟩

/-- C5, instance: `demoMarket`, and an increment that takes `demoStock` below zero. -/
theorem price_nonneg_witness :
    demoMarket.Ready ∧
    ((applyIncrement demoStock (-10003)).price = max 0 (demoStock.price + -10003) ∧
     (demoStock.price + -10003 < 0 → (applyIncrement demoStock (-10003)).price = 0) ∧
     ∃ m1, simulate demoDraws demoTrade demoMarket = some m1 ∧
      (∀ s ∈ m1.stocks, 0 ≤ s.price) ∧
      ∀ (i : Nat) (s : Stock), demoMarket.stocks[i]? = some s →
        ∃ s1, m1.stocks[i]? = some s1 ∧ (s.price = 0 → s1.price = 0) ∧
          (s.price ≠ 0 →
            ∃ j, s1.price = max 0 (s.price + priceIncrement s (demoDraws j)))) :=
  ⟨by decide,
    price_nonneg demoDraws demoTrade demoMarket demoStock (-10003) (by decide)
      demoTrade_inRange⟩

/-- C6. Buy settlement: for a Buy order of quantity `q` on an in-range stock, with
`cost = q * price`: if `q <= inventory` and `cost <= cash` the order is accepted, the
stock's inventory decreases by `q`, the bot's holding of the stock increases by `q`, its
cash decreases by `cost`, and no other stock entry, holding or field changes; otherwise
stocks and bot are unchanged.  A buy of the whole inventory leaves inventory 0 and a buy
whose cost equals the cash leaves cash 0.  (Other bots are not touched by the settlement
of this bot's order.) -/
theorem buy_settlement (stocks : List Stock) (bot : Bot) (id q : Int) (stock : Stock)
    (held : Int) (hid : 0 ≤ id) (hstock : stocks[id.toNat]? = some stock)
    (hheld : bot.assets[id.toNat]? = some held) :
    ∃ r, settleOrder stocks bot (Order.mk id q Order.Buy) = some r ∧
      (q ≤ stock.amount ∧ q * stock.price ≤ bot.money →
        r = (stocks.set id.toNat { stock with amount := stock.amount - q },
             { bot with assets := bot.assets.set id.toNat (held + q),
                        money := bot.money - q * stock.price }) ∧
        inventory r.1 id.toNat = stock.amount - q ∧
        r.2.holding id.toNat = held + q ∧
        r.2.money = bot.money - q * stock.price ∧
        ∀ j : Nat, j ≠ id.toNat → r.1[j]? = stocks[j]? ∧ r.2.assets[j]? = bot.assets[j]?) ∧
      (¬ (q ≤ stock.amount ∧ q * stock.price ≤ bot.money) → r = (stocks, bot)) ∧
      (q = stock.amount → q * stock.price ≤ bot.money → inventory r.1 id.toNat = 0) ∧
      (q ≤ stock.amount → q * stock.price = bot.money → r.2.money = 0) := by
  have hneg : ¬ id < 0 := by omega
  by_cases hacc : q ≤ stock.amount ∧ q * stock.price ≤ bot.money
  · have h1 : ¬ stock.amount < q := by omega
    have h2 : ¬ q * stock.price > bot.money := by omega
    have hobs := transfer_obs (d := q) hstock hheld
    refine ⟨transfer stocks bot id.toNat stock held q, ?_, ?_, ?_, ?_, ?_⟩
    · simp [settleOrder, hneg, hstock, hheld, h1, h2, transfer]
    · intro _
      exact ⟨rfl, hobs⟩
    · intro h; exact absurd hacc h
    · intro h _
      rw [hobs.1, h]; simp
    · intro _ h
      rw [hobs.2.2.1, h]; simp
  · refine ⟨(stocks, bot), ?_, ?_, ?_, ?_, ?_⟩
    · simp only [settleOrder, if_neg hneg, hstock, if_true]
      by_cases h1 : stock.amount < q
      · simp [h1]
      · have h2 : q * stock.price > bot.money := by
          by_contra h2
          exact hacc ⟨by omega, by omega⟩
        simp [h1, h2]
    · intro h; exact absurd h hacc
    · intro _; rfl
    · intro h1 h2; exact absurd ⟨by omega, h2⟩ hacc
    · intro h1 h2; exact absurd ⟨h1, by omega⟩ hacc

/-- C6, instance: `demoBot` buys 10 shares of `demoStock` with exactly the cash it has. -/
theorem buy_settlement_witness :
    (0 : Int) ≤ 0 ∧ [demoStock][(0 : Int).toNat]? = some demoStock ∧
    demoBot.assets[(0 : Int).toNat]? = some 7 ∧
    ∃ r, settleOrder [demoStock] demoBot (Order.mk 0 10 Order.Buy) = some r ∧
      (10 ≤ demoStock.amount ∧ 10 * demoStock.price ≤ demoBot.money →
        r = ([demoStock].set 0 { demoStock with amount := demoStock.amount - 10 },
             { demoBot with assets := demoBot.assets.set 0 (7 + 10),
                            money := demoBot.money - 10 * demoStock.price }) ∧
        inventory r.1 0 = demoStock.amount - 10 ∧
        r.2.holding 0 = 7 + 10 ∧
        r.2.money = demoBot.money - 10 * demoStock.price ∧
        ∀ j : Nat, j ≠ 0 → r.1[j]? = [demoStock][j]? ∧ r.2.assets[j]? = demoBot.assets[j]?) ∧
      (¬ (10 ≤ demoStock.amount ∧ 10 * demoStock.price ≤ demoBot.money) →
        r = ([demoStock], demoBot)) ∧
      (10 = demoStock.amount → 10 * demoStock.price ≤ demoBot.money →
        inventory r.1 0 = 0) ∧
      (10 ≤ demoStock.amount → 10 * demoStock.price = demoBot.money → r.2.money = 0) :=
  ⟨by decide, rfl, rfl,
    buy_settlement [demoStock] demoBot 0 10 demoStock 7 (by decide) rfl rfl⟩

/-- C7. Sell settlement: for a Sell order of quantity `q` on an in-range stock: if
`q <= holding` the order is accepted, whatever the bot's cash and the stock's inventory:
the stock's inventory increases by `q`, the bot's holding decreases by `q`, its cash
increases by `q * price`, and no other stock entry, holding or field changes; otherwise
stocks and bot are unchanged.  Selling the whole holding leaves holding 0.  Scenario: with
one stock of price `p >= 0` and inventory `n` that keeps its price (drift and deviation 0)
and one bot with cash `c` and no shares, a settled buy of 3 on day 1 and a sell of 2 on
day 2 leave cash `c - 3p + 2p`, holding 1 and inventory `n - 1`. -/
theorem sell_settlement (stocks : List Stock) (bot : Bot) (id q : Int) (stock : Stock)
    (held : Int) (p c n : Int) (z1 z2 : Nat → ℚ)
    (hid : 0 ≤ id) (hstock : stocks[id.toNat]? = some stock)
    (hheld : bot.assets[id.toNat]? = some held)
    (hp : 0 ≤ p) (hn : 3 ≤ n) (hc : 3 * p ≤ c) :
    (∃ r, settleOrder stocks bot (Order.mk id q Order.Sell) = some r ∧
      (q ≤ held →
        r = (stocks.set id.toNat { stock with amount := stock.amount + q },
             { bot with assets := bot.assets.set id.toNat (held - q),
                        money := bot.money + q * stock.price }) ∧
        inventory r.1 id.toNat = stock.amount + q ∧
        r.2.holding id.toNat = held - q ∧
        r.2.money = bot.money + q * stock.price ∧
        ∀ j : Nat, j ≠ id.toNat → r.1[j]? = stocks[j]? ∧ r.2.assets[j]? = bot.assets[j]?) ∧
      (¬ q ≤ held → r = (stocks, bot)) ∧
      (q = held → r.2.holding id.toNat = 0)) ∧
    simulateDays [(z1, buyThree), (z2, sellTwo)] (scenarioMarket p c n) =
      some { stocks := [⟨0, p, n - 1, 0, 0⟩],
             objs := [⟨"MyBot", c - 3 * p + 2 * p, [0], [1], [], 2⟩], bots := [0],
             day := 2, initial := c } := by
  refine ⟨?_, buyThenSell_run p c n z1 z2 hp hn hc⟩
  have hneg : ¬ id < 0 := by omega
  by_cases hacc : q ≤ held
  · have h1 : ¬ held < q := by omega
    have hobs := transfer_obs (d := -q) hstock hheld
    have heq : transfer stocks bot id.toNat stock held (-q) =
        (stocks.set id.toNat { stock with amount := stock.amount + q },
         { bot with assets := bot.assets.set id.toNat (held - q),
                    money := bot.money + q * stock.price }) := by
      simp [transfer, sub_neg_eq_add, ← sub_eq_add_neg]
    refine ⟨transfer stocks bot id.toNat stock held (-q), ?_, ?_, ?_, ?_⟩
    · rw [heq]
      simp [settleOrder, hneg, hstock, hheld, h1, Order.Buy, Order.Sell]
    · intro _
      refine ⟨heq, ?_, ?_, ?_, hobs.2.2.2⟩
      · rw [hobs.1]; ring
      · rw [hobs.2.1]; ring
      · rw [hobs.2.2.1]; ring
    · intro h; exact absurd hacc h
    · intro h
      rw [hobs.2.1, h]; ring
  · have h1 : held < q := by omega
    refine ⟨(stocks, bot), ?_, ?_, ?_, ?_⟩
    · simp [settleOrder, hneg, hstock, hheld, h1, Order.Buy, Order.Sell]
    · intro h; exact absurd h hacc
    · intro _; rfl
    · intro h; omega

/-- C7, instance: `demoBot` sells its 7 shares of `demoStock`; the scenario with price
100.00, cash 1000.00 and inventory 120. -/
theorem sell_settlement_witness :
    (0 : Int) ≤ 0 ∧ [demoStock][(0 : Int).toNat]? = some demoStock ∧
    demoBot.assets[(0 : Int).toNat]? = some 7 ∧
    (0 : Int) ≤ 10000 ∧ (3 : Int) ≤ 120 ∧ (3 : Int) * 10000 ≤ 100000 ∧
    ((∃ r, settleOrder [demoStock] demoBot (Order.mk 0 7 Order.Sell) = some r ∧
      (7 ≤ (7 : Int) →
        r = ([demoStock].set 0 { demoStock with amount := demoStock.amount + 7 },
             { demoBot with assets := demoBot.assets.set 0 (7 - 7),
                            money := demoBot.money + 7 * demoStock.price }) ∧
        inventory r.1 0 = demoStock.amount + 7 ∧
        r.2.holding 0 = 7 - 7 ∧
        r.2.money = demoBot.money + 7 * demoStock.price ∧
        ∀ j : Nat, j ≠ 0 → r.1[j]? = [demoStock][j]? ∧ r.2.assets[j]? = demoBot.assets[j]?) ∧
      (¬ 7 ≤ (7 : Int) → r = ([demoStock], demoBot)) ∧
      ((7 : Int) = 7 → r.2.holding 0 = 0)) ∧
    simulateDays [(demoDraws, buyThree), (demoDraws, sellTwo)]
        (scenarioMarket 10000 100000 120) =
      some { stocks := [⟨0, 10000, 120 - 1, 0, 0⟩],
             objs := [⟨"MyBot", 100000 - 3 * 10000 + 2 * 10000, [0], [1], [], 2⟩],
             bots := [0], day := 2, initial := 100000 }) :=
  ⟨by decide, rfl, rfl, by decide, by decide, by decide,
    sell_settlement [demoStock] demoBot 0 7 demoStock 7 10000 100000 120 demoDraws demoDraws
      (by decide) rfl rfl (by decide) (by decide) (by decide)⟩

/-- C9, counterexample: a Buy order of quantity -5 (a quantity <= 0) for stock 0 is not
dropped: it passes both guards and is executed, the inventory goes from 120 to 125, the
bot's holding from 7 to 2 and its cash from 100000 to 150000. -/
theorem negative_quantity_not_dropped :
    (Order.mk 0 (-5) Order.Buy).amount ≤ 0 ∧
    (settleOrder [demoStock] demoBot (Order.mk 0 (-5) Order.Buy)).map
        (fun r => (inventory r.1 0, r.2.holding 0, r.2.money)) = some (125, 2, 150000) ∧
    (inventory [demoStock] 0, demoBot.holding 0, demoBot.money) = (120, 7, 100000) := by
  decide

/-- C9, amended. For a pending order with an in-range stock id: if its side is neither Buy
nor Sell it is dropped, and if its quantity is 0 it changes nothing (the holdings vector
covering the stock): stocks and bot are the same after processing the order as before.
(An order with negative quantity is not checked for its sign.) -/
theorem invalid_order_dropped (stocks : List Stock) (bot : Bot) (order : Order)
    (stock : Stock) (hid : 0 ≤ order.id) (hstock : stocks[order.id.toNat]? = some stock) :
    (order.type ≠ Order.Buy ∧ order.type ≠ Order.Sell →
      settleOrder stocks bot order = some (stocks, bot)) ∧
    (order.amount = 0 → order.id.toNat < bot.assets.length →
      settleOrder stocks bot order = some (stocks, bot)) := by
  have hneg : ¬ order.id < 0 := by omega
  constructor
  · intro ⟨h1, h2⟩
    simp [settleOrder, hneg, hstock, h1, h2]
  · intro h0 hlt
    have hh : bot.assets[order.id.toNat]? = some bot.assets[order.id.toNat] :=
      List.getElem?_eq_getElem hlt
    have hs1 : stocks.set order.id.toNat stock = stocks := set_same _ _ _ hstock
    have hs2 : bot.assets.set order.id.toNat bot.assets[order.id.toNat] = bot.assets :=
      set_same _ _ _ hh
    simp only [settleOrder, if_neg hneg, hstock, hh, h0, zero_mul, sub_zero, add_zero]
    split_ifs <;> simp [hs1, hs2]

/-- C9, instance: an order with side 3 and an order with quantity 0. -/
theorem invalid_order_dropped_witness :
    (0 : Int) ≤ (Order.mk 0 0 3).id ∧
    [demoStock][(Order.mk 0 0 3).id.toNat]? = some demoStock ∧
    (((Order.mk 0 0 3).type ≠ Order.Buy ∧ (Order.mk 0 0 3).type ≠ Order.Sell →
      settleOrder [demoStock] demoBot (Order.mk 0 0 3) = some ([demoStock], demoBot)) ∧
    ((Order.mk 0 0 3).amount = 0 → (Order.mk 0 0 3).id.toNat < demoBot.assets.length →
      settleOrder [demoStock] demoBot (Order.mk 0 0 3) = some ([demoStock], demoBot))) :=
  ⟨by decide, rfl, invalid_order_dropped [demoStock] demoBot (Order.mk 0 0 3) demoStock
    (by decide) rfl⟩

/-- C10, counterexample: with one stock, an order for stock id 1 and an order for stock id
-1 are not rejected: settlement reads `_stocks[id]` outside the vector, and the valid order
queued behind such an order is not processed either. -/
theorem out_of_range_not_rejected :
    settleOrder [demoStock] demoBot (Order.mk 1 1 Order.Buy) = none ∧
    settleOrder [demoStock] demoBot (Order.mk (-1) 1 Order.Sell) = none ∧
    settleOrders [demoStock] demoBot [Order.mk 1 1 Order.Buy, Order.mk 0 1 Order.Buy] = none := by
  decide

/-- C10, amended. `buy(id, qty)` and `sell(id, qty)` never fail and append the order to the
queue for any id; settlement makes no range check: for a pending order whose stock id is
negative or >= the number of stocks it reads `_stocks[id]` outside the vector (undefined
behaviour, `none` here), so neither that order, nor the bot's queue it stands in, nor the
settlement of that bot has a defined outcome. -/
theorem out_of_range_order (m : Market) (p : Nat) (bot : Bot) (id q : Int) (order : Order)
    (before after : List Order) (hbot : m.objs[p]? = some bot)
    (hqueue : bot.orders = before ++ order :: after)
    (hout : order.id < 0 ∨ (m.stocks.length : Int) ≤ order.id) :
    bot.buy id q = { bot with orders := bot.orders ++ [Order.mk id q Order.Buy] } ∧
    bot.sell id q = { bot with orders := bot.orders ++ [Order.mk id q Order.Sell] } ∧
    settleOrder m.stocks bot order = none ∧
    settleOrders m.stocks bot bot.orders = none ∧
    settleBot m p = none := by
  have h1 : settleOrders m.stocks bot bot.orders = none := by
    rw [hqueue]
    exact settleOrders_out_of_range order after before m.stocks bot hout
  exact ⟨rfl, rfl, settleOrder_out_of_range hout, h1, by simp [settleBot, hbot, h1]⟩

/-- C10, instance: in `strayMarket` the order for stock id 5 stands between two valid
orders. -/
theorem out_of_range_order_witness :
    ((Order.mk 5 1 Order.Buy).id < 0 ∨
      (strayMarket.stocks.length : Int) ≤ (Order.mk 5 1 Order.Buy).id) ∧
    (demoBot.buy 5 1 =
      { demoBot with orders := demoBot.orders ++ [Order.mk 5 1 Order.Buy] } ∧
    demoBot.sell 5 1 =
      { demoBot with orders := demoBot.orders ++ [Order.mk 5 1 Order.Sell] } ∧
    settleOrder strayMarket.stocks
      ⟨"MyBot", 100000, [0], [7],
        [⟨0, 1, Order.Buy⟩, ⟨5, 1, Order.Buy⟩, ⟨0, 2, Order.Sell⟩], 0⟩
      (Order.mk 5 1 Order.Buy) = none ∧
    settleOrders strayMarket.stocks
      ⟨"MyBot", 100000, [0], [7],
        [⟨0, 1, Order.Buy⟩, ⟨5, 1, Order.Buy⟩, ⟨0, 2, Order.Sell⟩], 0⟩
      [⟨0, 1, Order.Buy⟩, ⟨5, 1, Order.Buy⟩, ⟨0, 2, Order.Sell⟩] = none ∧
    settleBot strayMarket 0 = none) :=
  ⟨by decide, by
    have h := out_of_range_order strayMarket 0
      ⟨"MyBot", 100000, [0], [7],
        [⟨0, 1, Order.Buy⟩, ⟨5, 1, Order.Buy⟩, ⟨0, 2, Order.Sell⟩], 0⟩ 5 1
      (Order.mk 5 1 Order.Buy) [Order.mk 0 1 Order.Buy] [Order.mk 0 2 Order.Sell] rfl rfl
      (by decide)
    exact ⟨rfl, rfl, h.2.2.1, h.2.2.2.1, h.2.2.2.2⟩⟩

/-! ### Net worth, initialisation, creation, days -/

theorem toInt64_of_fits (x : Int) (hlo : -2 ^ 63 ≤ x) (hhi : x < 2 ^ 63) : toInt64 x = x := by
  unfold toInt64
  split_ifs with h <;> omega

theorem toInt64_emod (x : Int) : toInt64 (x % 2 ^ 64) = toInt64 x := by
  unfold toInt64
  rw [Int.emod_emod_of_dvd x (dvd_refl _)]

theorem netLoop_eq (stocks : List Stock) (ptrs : List Nat) :
    ∀ (rest : List Int) (i : Nat) (total : Int),
      (∀ j, j < rest.length → ptrs[i + j]? = some (i + j)) →
      i + rest.length ≤ stocks.length →
      ∃ r, netLoop stocks ptrs i rest total = some r ∧
        r % 2 ^ 64 = (total + sumFrom stocks i rest) % 2 ^ 64 := by
  intro rest
  induction rest with
  | nil =>
    intro i total _ _
    exact ⟨total, rfl, by simp [sumFrom]⟩
  | cons held rest ih =>
    intro i total hptr hlen
    simp only [List.length_cons] at hptr hlen
    have hp : ptrs[i]? = some i := by simpa using hptr 0 (by omega)
    have hi : i < stocks.length := by omega
    have hs : stocks[i]? = some stocks[i] := List.getElem?_eq_getElem hi
    obtain ⟨r, hr, hmod⟩ := ih (i + 1) ((total + stocks[i].price * held) % 2 ^ 64)
      (fun j hj => by
        have := hptr (j + 1) (by omega)
        rw [show i + 1 + j = i + (j + 1) by omega]
        exact this)
      (by omega)
    refine ⟨r, by simp only [netLoop, hp, hs]; exact hr, ?_⟩
    rw [hmod]
    have hprice : priceAt stocks i = stocks[i].price := by simp [priceAt, hs]
    simp only [sumFrom, hprice]
    rw [Int.emod_add_emod, add_assoc]

theorem holding_getD (bot : Bot) (j : Nat) : bot.holding j = bot.assets.getD j 0 := by
  unfold Bot.holding
  cases h : bot.assets[j]? <;> simp [List.getD_eq_getElem?_getD, h]

theorem sumFrom_eq (stocks : List Stock) :
    ∀ (rest : List Int) (i : Nat),
      sumFrom stocks i rest =
        ((List.range rest.length).map fun j => priceAt stocks (i + j) * rest.getD j 0).sum := by
  intro rest
  induction rest with
  | nil => intro i; simp [sumFrom]
  | cons held rest ih =>
    intro i
    simp only [sumFrom, List.length_cons, List.range_succ_eq_map, List.map_cons, List.sum_cons,
      List.map_map, ih (i + 1)]
    congr 1
    congr 1
    apply List.map_congr_left
    intro j _
    simp only [Function.comp_apply, List.getD_cons_succ]
    rw [show i + 1 + j = i + (j + 1) by omega]

theorem pushStocks_eq :
    ∀ (stocks : List Stock) (i : Nat) (bot : Bot),
      pushStocks i stocks bot =
        { bot with stocks := bot.stocks ++ List.range' i stocks.length,
                   assets := bot.assets ++ List.replicate stocks.length 0 } := by
  intro stocks
  induction stocks with
  | nil => intro i bot; simp [pushStocks]
  | cons s rest ih =>
    intro i bot
    simp [pushStocks, ih, List.range'_succ, List.replicate_succ]

theorem initStep_iterate (stocks : List Stock) (c : Int) (bot : Bot) :
    ∀ n : Nat,
      ((initStep stocks c)^[n] bot).assets =
        bot.assets ++ List.replicate (n * stocks.length) 0 ∧
      ((initStep stocks c)^[n] bot).name = bot.name ∧
      ((initStep stocks c)^[n] bot).orders = bot.orders ∧
      ((initStep stocks c)^[n] bot).day = bot.day ∧
      (0 < n → ((initStep stocks c)^[n] bot).money = c) := by
  intro n
  induction n with
  | zero => simp
  | succ n ih =>
    rw [Function.iterate_succ_apply']
    obtain ⟨h2, h3, h4, h5, _⟩ := ih
    simp only [initStep, pushStocks_eq] at h2 h3 h4 h5 ⊢
    refine ⟨?_, h3, h4, h5, fun _ => trivial⟩
    rw [h2, List.append_assoc, Nat.succ_mul, List.replicate_add]

theorem initStep_once (stocks : List Stock) (c : Int) (bot : Bot) :
    (initStep stocks c bot).stocks = bot.stocks ++ List.range stocks.length := by
  simp [initStep, pushStocks_eq, List.range_eq_range']

/-- The loop of `initialize_bots` applies its body to a bot object once for each time the
object is registered. -/
theorem initializeLoop_spec (stocks : List Stock) (c : Int) :
    ∀ (ps : List Nat) (objs : List Bot), (∀ p ∈ ps, p < objs.length) →
      ∃ objs1, initializeLoop stocks c ps objs = some objs1 ∧ objs1.length = objs.length ∧
        ∀ (q : Nat) (b : Bot), objs[q]? = some b →
          objs1[q]? = some ((initStep stocks c)^[ps.count q] b) := by
  intro ps
  induction ps with
  | nil =>
    intro objs _
    exact ⟨objs, rfl, rfl, fun q b hb => by simpa using hb⟩
  | cons p ps ih =>
    intro objs hps
    have hp : p < objs.length := hps p (List.mem_cons_self _ _)
    have hbot : objs[p]? = some objs[p] := List.getElem?_eq_getElem hp
    obtain ⟨objs1, h1, hlen1, hq1⟩ := ih (objs.set p (initStep stocks c objs[p]))
      (fun q hq => by simpa using hps q (List.mem_cons_of_mem _ hq))
    refine ⟨objs1, ?_, by simpa using hlen1, ?_⟩
    · simp only [initializeLoop, hbot]
      exact h1
    · intro q b hb
      by_cases hpq : p = q
      · subst hpq
        rw [hbot] at hb
        cases hb
        rw [hq1 p (initStep stocks c objs[p]) (by simp [List.getElem?_set, hp])]
        simp [List.count_cons_self, Function.iterate_succ_apply]
      · rw [hq1 q b (by simp [List.getElem?_set, hpq, hb])]
        have : (p == q) = false := by simpa using hpq
        simp [List.count_cons, this]

theorem createUniformLoop_eq (daily : ℚ) (z : Nat → ℚ) (latest : Nat) (price shares : Int) :
    ∀ (n i : Nat) (stocks : List Stock),
      createUniformLoop daily z latest price shares n i stocks =
        stocks ++ (List.range n).map fun j => uniformStock daily z latest price shares (i + j) := by
  intro n
  induction n with
  | zero => intro i stocks; simp [createUniformLoop]
  | succ n ih =>
    intro i stocks
    simp only [createUniformLoop, ih, List.range_succ_eq_map, List.map_cons, List.map_map,
      List.append_assoc, List.singleton_append]
    congr 2
    apply List.map_congr_left
    intro j _
    simp only [Function.comp_apply]
    rw [show i + 1 + j = i + (j + 1) by omega]

theorem createLoop_eq (daily : ℚ) (z : Nat → ℚ) (price shares : Nat → Int) (latest : Nat) :
    ∀ (n i : Nat) (stocks : List Stock),
      createLoop daily z price shares latest n i stocks =
        stocks ++ (List.range n).map fun j => randomStock daily z price shares latest (i + j) := by
  intro n
  induction n with
  | zero => intro i stocks; simp [createLoop]
  | succ n ih =>
    intro i stocks
    simp only [createLoop, ih, List.range_succ_eq_map, List.map_cons, List.map_map,
      List.append_assoc, List.singleton_append]
    congr 2
    apply List.map_congr_left
    intro j _
    simp only [Function.comp_apply]
    rw [show i + 1 + j = i + (j + 1) by omega]

/-- Appending stocks whose ids continue the numbering keeps the ids dense. -/
theorem dense_append (stocks : List Stock) (n : Nat) (f : Nat → Stock)
    (hdense : Dense stocks) (hid : ∀ j, (f j).id = ((stocks.length + j : Nat) : Int)) :
    Dense (stocks ++ (List.range n).map f) := by
  intro i s hs
  by_cases hi : i < stocks.length
  · rw [List.getElem?_append_left hi] at hs
    exact hdense i s hs
  · rw [List.getElem?_append_right (by omega)] at hs
    simp only [List.getElem?_map, Option.map_eq_some'] at hs
    obtain ⟨j, hj, rfl⟩ := hs
    have hj2 : j = i - stocks.length := by
      have := List.getElem?_eq_some.mp hj
      obtain ⟨hlt, heq⟩ := this
      simpa using heq.symm
    rw [hid, hj2]
    congr 1
    omega

theorem create_uniform_stocks (daily : ℚ) (z : Nat → ℚ) (m : Market) (amount price shares : Int) :
    (create_uniform daily z m amount price shares).stocks =
      m.stocks ++ (List.range amount.toNat).map
        (uniformStock daily z m.stocks.length price shares) := by
  simp [create_uniform, createUniformLoop_eq]

theorem create_stocks (daily : ℚ) (z : Nat → ℚ) (price shares : Nat → Int) (m : Market)
    (amount : Int) :
    (create daily z price shares m amount).stocks =
      m.stocks ++ (List.range amount.toNat).map
        (randomStock daily z price shares m.stocks.length) := by
  simp [create, createLoop_eq]

theorem run_dense (m : Market) (call : Creation) (hdense : Dense m.stocks) :
    Dense (call.run m).stocks := by
  cases call with
  | uniform daily z amount price shares =>
    simp only [Creation.run, create_uniform_stocks]
    exact dense_append _ _ _ hdense (fun j => by simp [uniformStock, Stock.new])
  | random daily z price shares amount =>
    simp only [Creation.run, create_stocks]
    exact dense_append _ _ _ hdense (fun j => by simp [randomStock, Stock.new])

theorem runCreations_dense :
    ∀ (calls : List Creation) (m : Market), Dense m.stocks →
      Dense (runCreations m calls).stocks := by
  intro calls
  induction calls with
  | nil => intro m h; exact h
  | cons call rest ih => intro m h; exact ih _ (run_dense m call h)

theorem split_at {α : Type} (l : List α) (k : Nat) (p : α) (h : l[k]? = some p) :
    l = l.take k ++ p :: l.drop (k + 1) ∧ l.take (k + 1) = l.take k ++ [p] ∧
    l.drop k = p :: l.drop (k + 1) := by
  obtain ⟨hk, hp⟩ := List.getElem?_eq_some.mp h
  have hd : l.drop k = p :: l.drop (k + 1) := by
    rw [List.drop_eq_getElem_cons hk, hp]
  refine ⟨?_, ?_, hd⟩
  · rw [← hd, List.take_append_drop]
  · rw [List.take_succ, h]; rfl

theorem not_mem_take {l : List Nat} (hnodup : l.Nodup) {k p : Nat} (h : l[k]? = some p) :
    p ∉ l.take k := by
  obtain ⟨hl, _, _⟩ := split_at l k p h
  rw [hl] at hnodup
  intro hmem
  have := (List.nodup_append.mp hnodup).2.2
  exact this hmem (List.mem_cons_self _ _)

theorem tradeBots_append (trade : Strategy) (day : Int) (stocks : List Stock) :
    ∀ (ps qs : List Nat) (k : Nat) (objs : List Bot),
      tradeBots trade day stocks k (ps ++ qs) objs =
        match tradeBots trade day stocks k ps objs with
        | none => none
        | some objs1 => tradeBots trade day stocks (k + ps.length) qs objs1 := by
  intro ps
  induction ps with
  | nil => intro qs k objs; simp [tradeBots]
  | cons p ps ih =>
    intro qs k objs
    simp only [List.cons_append, tradeBots, List.length_cons]
    cases objs[p]? with
    | none => rfl
    | some bot =>
      rw [show k + (ps.length + 1) = k + 1 + ps.length by omega]
      exact ih _ _ _

/-- After the trade loop a bot object that was called has the new day, and one that was
not called is as it was. -/
theorem tradeBots_touched (trade : Strategy) (day : Int) (stocks : List Stock) :
    ∀ (ps : List Nat) (k : Nat) (objs objs1 : List Bot),
      tradeBots trade day stocks k ps objs = some objs1 →
      ∀ (q : Nat) (b1 : Bot), objs1[q]? = some b1 →
        (q ∈ ps → b1.day = day) ∧ (q ∉ ps → objs[q]? = some b1) := by
  intro ps
  induction ps with
  | nil =>
    intro k objs objs1 h q b1 hb1
    simp only [tradeBots, Option.some.injEq] at h
    subst h
    exact ⟨fun hq => by simp at hq, fun _ => hb1⟩
  | cons p ps ih =>
    intro k objs objs1 h q b1 hb1
    simp only [tradeBots] at h
    cases hbot : objs[p]? with
    | none => simp [hbot] at h
    | some bot =>
      simp only [hbot] at h
      obtain ⟨h1, h2⟩ := ih _ _ _ h q b1 hb1
      have hlt : p < objs.length := (List.getElem?_eq_some.mp hbot).1
      by_cases hq : q ∈ ps
      · exact ⟨fun _ => h1 hq, fun hn => absurd (List.mem_cons_of_mem _ hq) hn⟩
      · have h3 := h2 hq
        by_cases hpq : p = q
        · subst hpq
          simp only [List.getElem?_set, if_true, hlt, Option.some.injEq] at h3
          exact ⟨fun _ => by rw [← h3], fun hn => absurd (List.mem_cons_self _ _) hn⟩
        · simp only [List.getElem?_set, if_neg hpq] at h3
          refine ⟨fun hmem => ?_, fun _ => h3⟩
          rcases List.mem_cons.mp hmem with h4 | h4
          · exact absurd h4.symm hpq
          · exact absurd h4 hq

theorem tradeBots_total (trade : Strategy) (day : Int) (stocks : List Stock) (ps : List Nat)
    (k : Nat) (objs : List Bot) (hps : ∀ p ∈ ps, p < objs.length) :
    ∃ objs1, tradeBots trade day stocks k ps objs = some objs1 ∧
      objs1.length = objs.length := by
  obtain ⟨objs1, h1, h2, _⟩ := tradeBots_rel trade day stocks (fun _ _ => True)
    (fun _ => trivial) (fun _ _ _ _ _ => trivial) (fun _ _ => trivial) ps k objs hps
  exact ⟨objs1, h1, h2⟩

theorem settleOrder_day {st : List Stock} {b : Bot} {o : Order} {r : List Stock × Bot}
    (h : settleOrder st b o = some r) : r.2.day = b.day := by
  obtain ⟨_, stock, hs, hr | ⟨held, hh, ⟨_, _, _, hr⟩ | ⟨_, _, hr⟩⟩⟩ := settleOrder_cases h
  · subst hr; rfl
  · subst hr; rfl
  · subst hr; rfl

theorem simulate_day (z : Nat → ℚ) (trade : Strategy) (m : Market) (hready : m.Ready)
    (hin : trade.InRange) :
    ∃ m1, simulate z trade m = some m1 ∧ m1.Ready ∧ m1.bots = m.bots ∧ m1.day = m.day + 1 ∧
      m1.BotsAtDay (m.day + 1) := by
  obtain ⟨objs1, htrade, hsim, hreadyB, _, _⟩ :=
    simulate_phases (fun _ => True) z trade m hready hin (fun _ _ _ _ _ => trivial)
  have hQ : ∀ p ∈ m.bots, ∀ bot, objs1[p]? = some bot → bot.day = m.day + 1 :=
    fun p hp bot hbot => (tradeBots_touched _ _ _ _ _ _ _ htrade p bot hbot).1 hp
  obtain ⟨m1, hm1, hr1, _, hQ1, hb1, _, _, hd1, _⟩ :=
    processOrders_pred (fun _ => True) (fun b => b.day = m.day + 1) (fun _ hb => hb)
      (fun st b o r _ _ hb h => ⟨trivial, (settleOrder_day h).trans hb⟩) m.bots
      { m with stocks := simulateMarket z 0 m.stocks, objs := objs1, day := m.day + 1 }
      (fun p hp => hp) hreadyB trivial hQ
  exact ⟨m1, by rw [hsim]; exact hm1, hr1, hb1, hd1, hQ1⟩

theorem simulateDays_day :
    ∀ (days : List ((Nat → ℚ) × Strategy)) (m : Market), m.Ready → m.BotsAtDay m.day →
      (∀ d ∈ days, d.2.InRange) →
      ∃ mN, simulateDays days m = some mN ∧ mN.Ready ∧ mN.bots = m.bots ∧
        mN.day = m.day + days.length ∧ mN.BotsAtDay mN.day := by
  intro days
  induction days with
  | nil => intro m hready hday _; exact ⟨m, rfl, hready, rfl, by simp, hday⟩
  | cons d rest ih =>
    intro m hready _ hdays
    obtain ⟨z, trade⟩ := d
    obtain ⟨m1, hm1, hr1, hb1, hd1, hq1⟩ :=
      simulate_day z trade m hready (hdays (z, trade) (List.mem_cons_self _ _))
    obtain ⟨mN, hmN, hrN, hbN, hdN, hqN⟩ :=
      ih m1 hr1 (by rw [hd1]; exact hq1) (fun d hd => hdays d (List.mem_cons_of_mem _ hd))
    refine ⟨mN, by simp [simulateDays, hm1, hmN], hrN, hbN.trans hb1, ?_, hqN⟩
    rw [hdN, hd1]
    simp only [List.length_cons, Nat.cast_add, Nat.cast_one]
    ring

theorem settleBot_idle {m : Market} {p : Nat} {bot : Bot} (hbot : m.objs[p]? = some bot)
    (hidle : bot.orders = []) : settleBot m p = some m := by
  have h1 : ({ bot with orders := [] } : Bot) = bot := by
    cases bot; simp_all
  simp [settleBot, hbot, hidle, settleOrders, h1, set_same _ _ _ hbot]

theorem processOrders_idle (m : Market) :
    ∀ ps : List Nat, (∀ p ∈ ps, ∃ bot, m.objs[p]? = some bot ∧ bot.orders = []) →
      processOrders ps m = some m := by
  intro ps
  induction ps with
  | nil => intro _; rfl
  | cons p ps ih =>
    intro h
    obtain ⟨bot, hbot, hidle⟩ := h p (List.mem_cons_self _ _)
    simp only [processOrders, settleBot_idle hbot hidle]
    exact ih (fun q hq => h q (List.mem_cons_of_mem _ hq))

theorem simulate_quiet (z : Nat → ℚ) (trade : Strategy) (m : Market) (hquiet : m.Quiet)
    (hsilent : trade.Silent) :
    ∃ m1, simulate z trade m = some m1 ∧ m1.Quiet ∧ m1.bots = m.bots ∧
      m1.stocks = simulateMarket z 0 m.stocks ∧ m1.initial = m.initial ∧
      m1.objs.length = m.objs.length ∧
      ∀ (q : Nat) (b : Bot), m.objs[q]? = some b → ∃ b1, m1.objs[q]? = some b1 ∧ SameBut b b1 := by
  have hptr : ∀ p ∈ m.bots, p < m.objs.length := by
    intro p hp
    obtain ⟨bot, hbot, _⟩ := hquiet p hp
    exact (List.getElem?_eq_some.mp hbot).1
  obtain ⟨objs1, h1, hlen1, hrel1⟩ := tradeBots_rel trade (m.day + 1)
    (simulateMarket z 0 m.stocks) SameBut (fun b => ⟨rfl, rfl, rfl, rfl, rfl⟩)
    (fun a b c h1 h2 => ⟨h2.1.trans h1.1, h2.2.1.trans h1.2.1, h2.2.2.1.trans h1.2.2.1,
      h2.2.2.2.1.trans h1.2.2.2.1, h2.2.2.2.2.trans h1.2.2.2.2⟩)
    (fun k b => by rw [hsilent]; exact ⟨rfl, rfl, rfl, rfl, rfl⟩)
    m.bots 0 m.objs hptr
  have hq1 : ∀ p ∈ m.bots, ∃ bot, objs1[p]? = some bot ∧ bot.orders = [] := by
    intro p hp
    obtain ⟨bot, hbot, hnone⟩ := hquiet p hp
    obtain ⟨b1, hb1, hR⟩ := hrel1 p bot hbot
    exact ⟨b1, hb1, hR.2.2.2.2.trans hnone⟩
  have hsettle := processOrders_idle
    { m with stocks := simulateMarket z 0 m.stocks, objs := objs1, day := m.day + 1 } m.bots hq1
  refine ⟨{ m with stocks := simulateMarket z 0 m.stocks, objs := objs1, day := m.day + 1 },
    by simp only [simulate, h1, settle]; exact hsettle, ?_, rfl, rfl, rfl, hlen1, hrel1⟩
  intro p hp
  obtain ⟨bot, hbot, hnone⟩ := hq1 p hp
  exact ⟨bot, hbot, hnone⟩

theorem simulateDays_quiet :
    ∀ (days : List ((Nat → ℚ) × Strategy)) (m : Market), m.Quiet →
      (∀ d ∈ days, d.2.Silent) →
      ∃ mN, simulateDays days m = some mN ∧ mN.bots = m.bots ∧ mN.initial = m.initial ∧
        (∀ i, inventory mN.stocks i = inventory m.stocks i) ∧
        ∀ (q : Nat) (b : Bot), m.objs[q]? = some b →
          ∃ b1, mN.objs[q]? = some b1 ∧ SameBut b b1 := by
  intro days
  induction days with
  | nil =>
    intro m _ _
    exact ⟨m, rfl, rfl, rfl, fun _ => rfl, fun q b hb => ⟨b, hb, rfl, rfl, rfl, rfl, rfl⟩⟩
  | cons d rest ih =>
    intro m hquiet hdays
    obtain ⟨z, trade⟩ := d
    obtain ⟨m1, hm1, hq1, hb1, hs1, hi1, _, hrel1⟩ :=
      simulate_quiet z trade m hquiet (hdays (z, trade) (List.mem_cons_self _ _))
    obtain ⟨mN, hmN, hbN, hiN, hsN, hrelN⟩ :=
      ih m1 hq1 (fun d hd => hdays d (List.mem_cons_of_mem _ hd))
    refine ⟨mN, by simp [simulateDays, hm1, hmN], hbN.trans hb1, hiN.trans hi1, ?_, ?_⟩
    · intro i
      rw [hsN i, hs1, simulateMarket_amount]
    · intro q b hb
      obtain ⟨b1, hb1', hR1⟩ := hrel1 q b hb
      obtain ⟨bN, hbN', hRN⟩ := hrelN q b1 hb1'
      exact ⟨bN, hbN', hRN.1.trans hR1.1, hRN.2.1.trans hR1.2.1, hRN.2.2.1.trans hR1.2.2.1,
        hRN.2.2.2.1.trans hR1.2.2.2.1, hRN.2.2.2.2.trans hR1.2.2.2.2⟩

theorem applyIncrement_flat (stock : Stock) (z : ℚ) (hd : stock.drift = 0)
    (hv : stock.deviation = 0) (hp : 0 ≤ stock.price) :
    applyIncrement stock (priceIncrement stock z) = stock := by
  rw [priceIncrement_flat stock z hd hv]
  have h : ¬ stock.price + 0 < 0 := by omega
  cases stock
  simp_all [applyIncrement]

theorem idle_silent : idle.Silent := fun _ _ _ => rfl

theorem idleDays_silent : ∀ d ∈ idleDays, Strategy.Silent d.2 := by
  intro d hd
  simp only [idleDays, List.mem_cons, List.mem_singleton, List.not_mem_nil, or_false] at hd
  rcases hd with rfl | rfl <;> exact idle_silent

theorem idle_inRange : idle.InRange := by
  intro k bot stocks c hc
  simp [idle] at hc

theorem idleDays_inRange : ∀ d ∈ idleDays, Strategy.InRange d.2 := by
  intro d hd
  simp only [idleDays, List.mem_cons, List.mem_singleton, List.not_mem_nil, or_false] at hd
  rcases hd with rfl | rfl <;> exact idle_inRange

theorem demoMarket_dense : Dense demoMarket.stocks := by
  intro i s hs
  cases i with
  | zero =>
    simp only [demoMarket, List.getElem?_cons_zero, Option.some.injEq] at hs
    subst hs
    rfl
  | succ i => simp [demoMarket] at hs

/-! ## The claims, continued -/

/-- C11. Net worth: for a bot that `initialize_bots` has set up for the market's stocks
(one stock pointer and one holdings entry per stock), `integer_net()` returns the value
`cash + sum over all stock ids i of stocks[i].price * holdings[i]` reduced modulo 2^64
into the signed 64-bit range (the accumulator is a `uint64_t`); it returns exactly that
value whenever the value fits in a signed 64-bit integer. -/
theorem integer_net_eq (stocks : List Stock) (bot : Bot) (hinit : bot.Initialized stocks) :
    bot.integer_net stocks = some (toInt64 (netWorth stocks bot)) ∧
    (-2 ^ 63 ≤ netWorth stocks bot → netWorth stocks bot < 2 ^ 63 →
      bot.integer_net stocks = some (netWorth stocks bot)) := by
  obtain ⟨hptr, hlen⟩ := hinit
  have hsum : netWorth stocks bot = sumFrom stocks 0 bot.assets + bot.money := by
    rw [sumFrom_eq, netWorth, hlen, add_comm]
    congr 2
    apply List.map_congr_left
    intro j _
    rw [Nat.zero_add, holding_getD]
  obtain ⟨r, hr, hmod⟩ := netLoop_eq stocks bot.stocks bot.assets 0 0
    (fun j hj => by
      rw [hptr, Nat.zero_add]
      exact List.getElem?_range (by omega))
    (by omega)
  have hnet : bot.integer_net stocks = some (toInt64 (netWorth stocks bot)) := by
    simp only [Bot.integer_net, hr]
    rw [toInt64_emod, hsum]
    congr 1
    unfold toInt64
    have : (r + bot.money) % 2 ^ 64 = (sumFrom stocks 0 bot.assets + bot.money) % 2 ^ 64 := by
      rw [Int.emod_add_cancel_right, hmod, zero_add]
    rw [this]
  exact ⟨hnet, fun hlo hhi => by rw [hnet, toInt64_of_fits _ hlo hhi]⟩

/-- C11, instance: `demoBot` holds 7 shares of `demoStock`. -/
theorem integer_net_eq_witness :
    demoBot.Initialized [demoStock] ∧
    (demoBot.integer_net [demoStock] = some (toInt64 (netWorth [demoStock] demoBot)) ∧
    (-2 ^ 63 ≤ netWorth [demoStock] demoBot → netWorth [demoStock] demoBot < 2 ^ 63 →
      demoBot.integer_net [demoStock] = some (netWorth [demoStock] demoBot))) :=
  ⟨by decide, integer_net_eq [demoStock] demoBot (by decide)⟩

/-- C13. Dense stock ids: in a market with `stocks[i].id = i` for all `i`, and for
`amount >= 0`, `create_uniform(amount, initial_price, initial_shares)` appends exactly
`amount` stocks, leaves the existing stocks unchanged, gives the new stock at index `k` the
id `k`, the price `initial_price` and the inventory `initial_shares`, and keeps
`stocks[i].id = i`; the same holds after any sequence of `create_uniform` and `create`
calls on an empty market. -/
theorem create_uniform_dense (daily : ℚ) (z : Nat → ℚ) (m : Market)
    (amount initial_price initial_shares : Int) (calls : List Creation) (objs : List Bot)
    (hdense : Dense m.stocks) (hamount : 0 ≤ amount) :
    ((create_uniform daily z m amount initial_price initial_shares).stocks.length : Int) =
      m.stocks.length + amount ∧
    (∀ i, i < m.stocks.length →
      (create_uniform daily z m amount initial_price initial_shares).stocks[i]? =
        m.stocks[i]?) ∧
    (∀ k, m.stocks.length ≤ k →
      k < (create_uniform daily z m amount initial_price initial_shares).stocks.length →
      ∃ s, (create_uniform daily z m amount initial_price initial_shares).stocks[k]? = some s ∧
        s.id = k ∧ s.price = initial_price ∧ s.amount = initial_shares) ∧
    Dense (create_uniform daily z m amount initial_price initial_shares).stocks ∧
    Dense (runCreations (Market.new objs) calls).stocks := by
  have hst := create_uniform_stocks daily z m amount initial_price initial_shares
  refine ⟨?_, ?_, ?_, ?_, ?_⟩
  · rw [hst]
    simp only [List.length_append, List.length_map, List.length_range, Nat.cast_add]
    rw [Int.toNat_of_nonneg hamount]
  · intro i hi
    rw [hst, List.getElem?_append_left hi]
  · intro k hk hlt
    rw [hst] at hlt ⊢
    simp only [List.length_append, List.length_map, List.length_range] at hlt
    rw [List.getElem?_append_right hk]
    have hj : k - m.stocks.length < amount.toNat := by omega
    refine ⟨uniformStock daily z m.stocks.length initial_price initial_shares
      (k - m.stocks.length), by simp [List.getElem?_map, List.getElem?_range hj], ?_, rfl, rfl⟩
    simp only [uniformStock, Stock.new]
    omega
  · exact run_dense m (Creation.uniform daily z amount initial_price initial_shares) hdense
  · exact runCreations_dense calls _ (fun i s hs => by simp [Market.new] at hs)

/-- C13, instance: three more stocks for `demoMarket`. -/
theorem create_uniform_dense_witness :
    Dense demoMarket.stocks ∧ (0 : Int) ≤ 3 ∧
    (((create_uniform (1 / 7000) demoDraws demoMarket 3 10000 120).stocks.length : Int) =
      demoMarket.stocks.length + 3 ∧
    (∀ i, i < demoMarket.stocks.length →
      (create_uniform (1 / 7000) demoDraws demoMarket 3 10000 120).stocks[i]? =
        demoMarket.stocks[i]?) ∧
    (∀ k, demoMarket.stocks.length ≤ k →
      k < (create_uniform (1 / 7000) demoDraws demoMarket 3 10000 120).stocks.length →
      ∃ s, (create_uniform (1 / 7000) demoDraws demoMarket 3 10000 120).stocks[k]? = some s ∧
        s.id = k ∧ s.price = 10000 ∧ s.amount = 120) ∧
    Dense (create_uniform (1 / 7000) demoDraws demoMarket 3 10000 120).stocks ∧
    Dense (runCreations (Market.new [])
      [Creation.uniform (1 / 7000) demoDraws 2 10000 120,
       Creation.random (1 / 7000) demoDraws (fun _ => 100) (fun _ => 10) 3]).stocks) :=
  ⟨demoMarket_dense, by decide,
    create_uniform_dense (1 / 7000) demoDraws demoMarket 3 10000 120
      [Creation.uniform (1 / 7000) demoDraws 2 10000 120,
       Creation.random (1 / 7000) demoDraws (fun _ => 100) (fun _ => 10) 3] []
      demoMarket_dense (by decide)⟩

theorem tradeBots_length (trade : Strategy) (day : Int) (stocks : List Stock) :
    ∀ (ps : List Nat) (k : Nat) (objs objs1 : List Bot),
      tradeBots trade day stocks k ps objs = some objs1 → objs1.length = objs.length := by
  intro ps
  induction ps with
  | nil =>
    intro k objs objs1 h
    simp only [tradeBots, Option.some.injEq] at h
    rw [h]
  | cons p ps ih =>
    intro k objs objs1 h
    simp only [tradeBots] at h
    cases hbot : objs[p]? with
    | none => simp [hbot] at h
    | some bot =>
      simp only [hbot] at h
      simpa using ih _ _ _ h

/-- With distinct pointers, the trade loop leaves behind each called bot object the result
of its own `trade()` call. -/
theorem tradeBots_nodup (trade : Strategy) (day : Int) (stocks : List Stock) :
    ∀ (ps : List Nat) (k : Nat) (objs objs1 : List Bot), ps.Nodup →
      tradeBots trade day stocks k ps objs = some objs1 →
      ∀ (j p : Nat) (b : Bot), ps[j]? = some p → objs[p]? = some b →
        objs1[p]? = some { b.submit (trade (k + j) b stocks) with day := day } := by
  intro ps
  induction ps with
  | nil => intro k objs objs1 _ _ j p b hj; simp at hj
  | cons p0 ps ih =>
    intro k objs objs1 hnd h j p b hj hb
    obtain ⟨hp0, hnd1⟩ := List.nodup_cons.mp hnd
    simp only [tradeBots] at h
    cases hbot : objs[p0]? with
    | none => simp [hbot] at h
    | some bot0 =>
      simp only [hbot] at h
      have hlt : p0 < objs.length := (List.getElem?_eq_some.mp hbot).1
      cases j with
      | zero =>
        simp only [List.getElem?_cons_zero, Option.some.injEq] at hj
        subst hj
        rw [hbot] at hb
        cases hb
        have hlen := tradeBots_length _ _ _ _ _ _ _ h
        simp only [List.length_set] at hlen
        have hex : objs1[p0]? = some objs1[p0] := List.getElem?_eq_getElem (by omega)
        have h2 := (tradeBots_touched trade day stocks ps (k + 1) _ objs1 h p0 _ hex).2 hp0
        simp only [List.getElem?_set, if_true, hlt, Option.some.injEq] at h2
        rw [hex, ← h2, Nat.add_zero]
      | succ j =>
        simp only [List.getElem?_cons_succ] at hj
        have hne : ¬ p0 = p := fun hEq => hp0 (hEq ▸ List.getElem?_mem hj)
        have := ih (k + 1) _ objs1 hnd1 h j p b hj (by simp [List.getElem?_set, hne, hb])
        rw [this, show k + 1 + j = k + (j + 1) by omega]

/-- Settlement leaves the queue of every bot it has settled empty. -/
theorem processOrders_cleared :
    ∀ (ps : List Nat) (m m1 : Market), processOrders ps m = some m1 →
      ∀ q ∈ ps, ∀ (b1 : Bot), m1.objs[q]? = some b1 → b1.orders = [] := by
  intro ps
  induction ps with
  | nil => intro m m1 _ q hq; simp at hq
  | cons p ps ih =>
    intro m m1 h q hq b1 hb1
    simp only [processOrders] at h
    cases hstep : settleBot m p with
    | none => simp [hstep] at h
    | some m2 =>
      simp only [hstep] at h
      by_cases hqps : q ∈ ps
      · exact ih m2 m1 h q hqps b1 hb1
      · have hqp : q = p := by
          rcases List.mem_cons.mp hq with h1 | h1
          · exact h1
          · exact absurd h1 hqps
        subst hqp
        rcases processOrders_kept ps m2 m1 h q b1 hb1 with h2 | h2
        · rcases settleBot_lookup hstep h2 with ⟨hne, _⟩ | ⟨_, _, _, _, _, _, _, rfl⟩
          · exact absurd rfl hne
          · rfl
        · exact h2

theorem sum_range_update (f g : Nat → Int) (k : Nat) (hfg : ∀ i, i ≠ k → g i = f i) :
    ∀ n : Nat, k < n →
      ((List.range n).map g).sum = ((List.range n).map f).sum + (g k - f k) := by
  have hsame : ∀ n : Nat, n ≤ k → ((List.range n).map g).sum = ((List.range n).map f).sum := by
    intro n
    induction n with
    | zero => intro _; rfl
    | succ n ih =>
      intro hn
      rw [List.sum_range_succ, List.sum_range_succ, ih (by omega), hfg n (by omega)]
  intro n
  induction n with
  | zero => intro h; omega
  | succ n ih =>
    intro hk
    rw [List.sum_range_succ, List.sum_range_succ]
    by_cases hkn : k = n
    · subst hkn
      rw [hsame k (le_refl _)]
      ring
    · rw [ih (by omega), hfg n (fun h => hkn h.symm)]
      ring

theorem priceAt_congr {st st1 : List Stock} (h : st1.map Stock.price = st.map Stock.price)
    (i : Nat) : priceAt st1 i = priceAt st i := by
  have h2 : (st1.map Stock.price)[i]? = (st.map Stock.price)[i]? := by rw [h]
  simp only [List.getElem?_map] at h2
  unfold priceAt
  cases h3 : st1[i]? <;> cases h4 : st[i]? <;> simp_all

theorem netWorth_congr {st st1 : List Stock} (h : st1.map Stock.price = st.map Stock.price)
    (bot : Bot) : netWorth st1 bot = netWorth st bot := by
  have hlen : st1.length = st.length := by
    have := congrArg List.length h
    simpa using this
  unfold netWorth
  rw [hlen]
  congr 2
  apply List.map_congr_left
  intro i _
  rw [priceAt_congr h]

theorem netWorth_transfer {stocks : List Stock} {bot : Bot} {k : Nat} {stock : Stock}
    {held d : Int} (hs : stocks[k]? = some stock) (hh : bot.assets[k]? = some held) :
    netWorth (transfer stocks bot k stock held d).1 (transfer stocks bot k stock held d).2 =
      netWorth stocks bot := by
  rw [netWorth_congr (transfer_price hs)]
  have hk : k < stocks.length := (List.getElem?_eq_some.mp hs).1
  have hk2 : k < bot.assets.length := (List.getElem?_eq_some.mp hh).1
  unfold netWorth
  rw [sum_range_update (fun i => priceAt stocks i * bot.holding i)
    (fun i => priceAt stocks i * (transfer stocks bot k stock held d).2.holding i) k ?_ _ hk]
  · have h1 : (transfer stocks bot k stock held d).2.holding k = held + d := by
      simp [transfer, Bot.holding, List.getElem?_set, hk2]
    have h2 : bot.holding k = held := by simp [Bot.holding, hh]
    have h3 : priceAt stocks k = stock.price := by simp [priceAt, hs]
    have h4 : (transfer stocks bot k stock held d).2.money = bot.money - d * stock.price :=
      rfl
    simp only [h1, h2, h3, h4]
    ring
  · intro i hi
    have hki : ¬ k = i := fun h => hi h.symm
    simp [transfer, Bot.holding, List.getElem?_set, hki]

theorem settleOrder_netWorth {st : List Stock} {b : Bot} {o : Order} {r : List Stock × Bot}
    (h : settleOrder st b o = some r) : netWorth r.1 r.2 = netWorth st b := by
  obtain ⟨_, stock, hs, hr | ⟨held, hh, ⟨_, _, _, hr⟩ | ⟨_, _, hr⟩⟩⟩ := settleOrder_cases h
  · subst hr; rfl
  · subst hr; exact netWorth_transfer hs hh
  · subst hr; exact netWorth_transfer hs hh

theorem settleOrders_netWorth {stocks : List Stock} {bot : Bot} {orders : List Order}
    {r : List Stock × Bot} (h : settleOrders stocks bot orders = some r) :
    netWorth r.1 r.2 = netWorth stocks bot ∧ r.1.map Stock.price = stocks.map Stock.price := by
  refine settleOrders_induct
    (fun st b => netWorth st b = netWorth stocks bot ∧
      st.map Stock.price = stocks.map Stock.price) orders ?_ stocks bot r ⟨rfl, rfl⟩ h
  intro st b o r1 _ hP h1
  exact ⟨(settleOrder_netWorth h1).trans hP.1, (settleOrder_price h1).trans hP.2⟩

/-- Settlement keeps the prices and the net worth of every bot object. -/
theorem processOrders_netWorth :
    ∀ (ps : List Nat) (m m1 : Market), processOrders ps m = some m1 →
      m1.stocks.map Stock.price = m.stocks.map Stock.price ∧
      ∀ (q : Nat) (b1 : Bot), m1.objs[q]? = some b1 →
        ∃ b, m.objs[q]? = some b ∧ netWorth m1.stocks b1 = netWorth m.stocks b := by
  intro ps
  induction ps with
  | nil =>
    intro m m1 h
    simp only [processOrders, Option.some.injEq] at h
    subst h
    exact ⟨rfl, fun q b1 hb1 => ⟨b1, hb1, rfl⟩⟩
  | cons p ps ih =>
    intro m m1 h
    simp only [processOrders] at h
    cases hstep : settleBot m p with
    | none => simp [hstep] at h
    | some m2 =>
      simp only [hstep] at h
      obtain ⟨hp1, hq1⟩ := ih m2 m1 h
      have hp2 : m2.stocks.map Stock.price = m.stocks.map Stock.price := by
        obtain ⟨bot, st1, b1, _, h1, rfl⟩ := settleBot_spec hstep
        exact (settleOrders_netWorth h1).2
      refine ⟨hp1.trans hp2, ?_⟩
      intro q b1 hb1
      obtain ⟨b2, hb2, hn2⟩ := hq1 q b1 hb1
      rcases settleBot_lookup hstep hb2 with ⟨_, hb0⟩ | ⟨_, bot, st1, b', hbot, h1, hst, rfl⟩
      · exact ⟨b2, hb0, hn2.trans (netWorth_congr hp2 b2)⟩
      · refine ⟨bot, by subst_vars; exact hbot, ?_⟩
        rw [hn2, hst]
        exact (settleOrders_netWorth h1).1

/-- Settlement does not touch a bot object that is not among the pointers it runs over. -/
theorem processOrders_untouched :
    ∀ (ps : List Nat) (m m1 : Market), processOrders ps m = some m1 →
      ∀ q, q ∉ ps → m1.objs[q]? = m.objs[q]? := by
  intro ps
  induction ps with
  | nil =>
    intro m m1 h q _
    simp only [processOrders, Option.some.injEq] at h
    rw [h]
  | cons p ps ih =>
    intro m m1 h q hq
    simp only [processOrders] at h
    cases hstep : settleBot m p with
    | none => simp [hstep] at h
    | some m2 =>
      simp only [hstep] at h
      have hqp : ¬ p = q := fun hEq => hq (hEq ▸ List.mem_cons_self _ _)
      rw [ih m2 m1 h q (fun hmem => hq (List.mem_cons_of_mem _ hmem))]
      obtain ⟨bot, st1, b1, _, _, rfl⟩ := settleBot_spec hstep
      simp [List.getElem?_set, hqp]

/-- Settling one bot depends only on the stocks and on that bot object. -/
theorem settleBot_agree {m m' m1 : Market} {p : Nat} (hst : m'.stocks = m.stocks)
    (hobj : m'.objs[p]? = m.objs[p]?) (h : settleBot m p = some m1) :
    ∃ m1', settleBot m' p = some m1' ∧ m1'.stocks = m1.stocks ∧
      m1'.objs[p]? = m1.objs[p]? ∧ ∀ q, q ≠ p → m1'.objs[q]? = m'.objs[q]? := by
  obtain ⟨bot, st1, b1, hbot, h1, rfl⟩ := settleBot_spec h
  have hbot' : m'.objs[p]? = some bot := hobj.trans hbot
  have hlt : p < m.objs.length := (List.getElem?_eq_some.mp hbot).1
  have hlt' : p < m'.objs.length := (List.getElem?_eq_some.mp hbot').1
  refine ⟨{ m' with stocks := st1, objs := m'.objs.set p { b1 with orders := [] } },
    by simp [settleBot, hbot', hst, h1], rfl, by simp [List.getElem?_set, hlt, hlt'], ?_⟩
  intro q hq
  have hpq : ¬ p = q := fun h => hq h.symm
  simp [List.getElem?_set, hpq]

/-- Two runs of settlement over the same pointers, from the same stocks and the same bot
objects behind these pointers, end with the same stocks and the same bot objects behind
these pointers. -/
theorem processOrders_agree :
    ∀ (ps : List Nat) (m m' m1 : Market), m'.stocks = m.stocks →
      (∀ p ∈ ps, m'.objs[p]? = m.objs[p]?) → processOrders ps m = some m1 →
      ∃ m1', processOrders ps m' = some m1' ∧ m1'.stocks = m1.stocks ∧
        ∀ p ∈ ps, m1'.objs[p]? = m1.objs[p]? := by
  intro ps
  induction ps with
  | nil =>
    intro m m' m1 hst _ h
    simp only [processOrders, Option.some.injEq] at h
    subst h
    exact ⟨m', rfl, hst, fun p hp => by simp at hp⟩
  | cons p ps ih =>
    intro m m' m1 hst hobj h
    simp only [processOrders] at h
    cases hstep : settleBot m p with
    | none => simp [hstep] at h
    | some m2 =>
      simp only [hstep] at h
      obtain ⟨m2', hstep', hst2, hp2, hframe'⟩ :=
        settleBot_agree hst (hobj p (List.mem_cons_self _ _)) hstep
      have hframe : ∀ q, q ≠ p → m2.objs[q]? = m.objs[q]? := by
        intro q hq
        obtain ⟨bot, st1, b1, _, _, rfl⟩ := settleBot_spec hstep
        have hpq : ¬ p = q := fun h => hq h.symm
        simp [List.getElem?_set, hpq]
      have hobj2 : ∀ q ∈ ps, m2'.objs[q]? = m2.objs[q]? := by
        intro q hq
        by_cases hqp : q = p
        · subst hqp; exact hp2
        · rw [hframe' q hqp, hframe q hqp]
          exact hobj q (List.mem_cons_of_mem _ hq)
      obtain ⟨m1', h1', hst1, hobj1⟩ := ih m2 m2' m1 hst2 hobj2 h
      refine ⟨m1', by simp [processOrders, hstep', h1'], hst1, ?_⟩
      intro q hq
      by_cases hqps : q ∈ ps
      · exact hobj1 q hqps
      · have hqp : q = p := by
          rcases List.mem_cons.mp hq with h2 | h2
          · exact h2
          · exact absurd h2 hqps
        subst hqp
        rw [processOrders_untouched ps m2' m1' h1' q hqps,
          processOrders_untouched ps m2 m1 h q hqps]
        exact hp2

/-- The inner settlement loop passes every order of the queue to `settleOrder`, once and in
queue order: it is the left fold of `settleOrder` over the queue. -/
theorem settleOrders_foldlM :
    ∀ (orders : List Order) (stocks : List Stock) (bot : Bot),
      settleOrders stocks bot orders =
        orders.foldlM (fun (s : List Stock × Bot) o => settleOrder s.1 s.2 o) (stocks, bot) := by
  intro orders
  induction orders with
  | nil => intro stocks bot; rfl
  | cons o rest ih =>
    intro stocks bot
    simp only [settleOrders, List.foldlM_cons]
    cases h : settleOrder stocks bot o with
    | none => rfl
    | some r =>
      obtain ⟨st1, b1⟩ := r
      exact ih st1 b1

theorem quiet_of_empty {m : Market} (hready : m.Ready) (hempty : m.QueuesEmpty) : m.Quiet := by
  intro p hp
  obtain ⟨bot, hbot, _⟩ := hready p hp
  exact ⟨bot, hbot, hempty p hp bot hbot⟩

/-- One day of `buyThree` and one more day without orders on the one-stock market: the
order of day 1 is executed on day 1 and not again on day 2. -/
theorem buyThenIdle_run (z1 z2 : Nat → ℚ) :
    simulate z1 buyThree (scenarioMarket 10000 100000 120) =
      some { stocks := [⟨0, 10000, 117, 0, 0⟩],
             objs := [⟨"MyBot", 70000, [0], [3], [], 1⟩], bots := [0],
             day := 1, initial := 100000 } ∧
    simulateDays [(z1, buyThree), (z2, idle)] (scenarioMarket 10000 100000 120) =
      some { stocks := [⟨0, 10000, 117, 0, 0⟩],
             objs := [⟨"MyBot", 70000, [0], [3], [], 2⟩], bots := [0],
             day := 2, initial := 100000 } := by
  have hA : ∀ (z : Nat → ℚ) (a : Int),
      simulateMarket z 0 [(⟨0, 10000, a, 0, 0⟩ : Stock)] = [⟨0, 10000, a, 0, 0⟩] := by
    intro z a
    simp only [simulateMarket]
    split_ifs with h0
    · rfl
    · rw [priceIncrement_flat _ _ rfl rfl]
      simp [applyIncrement]
  constructor
  · simp [simulate, scenarioMarket, hA, tradeBots, buyThree, Bot.submit,
      Bot.buy, settle, processOrders, settleBot, settleOrders, settleOrder,
      Order.Buy, Order.Sell]
  · simp [simulateDays, simulate, scenarioMarket, hA, tradeBots, buyThree, idle, Bot.submit,
      Bot.buy, settle, processOrders, settleBot, settleOrders, settleOrder,
      Order.Buy, Order.Sell]

/-- C16. Price factor and the creation-site parameters: `create_uniform` and `create`
compute `drift = daily_drift * (1 + DRIFT_FACTOR * z1)` and
`volatility = NOISE_FACTOR * |z2 * daily_drift|` and pass them to the constructor in the
order (drift, volatility), while the constructor takes (deviation, drift).  So the created
stock has `deviation() = daily_drift * (1 + DRIFT_FACTOR * z1)`, its drift field holds
`NOISE_FACTOR * |z2 * daily_drift|`, and the factor that phase A applies for a draw `z` is
`volatility + drift * z`, not `drift + volatility * z`.  For `create_uniform(1, 10000, 120)`
with `daily_drift = 1/7000`, `z1 = 1`, `z2 = 2` and the draw `z = 0`, `simulate()` moves
the price to 10001, where `drift + volatility * z` gives 10287. -/
theorem creation_swaps_drift_and_deviation (daily : ℚ) (z : Nat → ℚ)
    (initial_price initial_amount : Nat → Int) (m : Market) (amount price shares : Int)
    (j : Nat) (zs : ℚ) :
    (create_uniform daily z m amount price shares).stocks =
      m.stocks ++ (List.range amount.toNat).map
        (uniformStock daily z m.stocks.length price shares) ∧
    (create daily z initial_price initial_amount m amount).stocks =
      m.stocks ++ (List.range amount.toNat).map
        (randomStock daily z initial_price initial_amount m.stocks.length) ∧
    (uniformStock daily z m.stocks.length price shares j).deviation =
      daily * (1 + drift_factor * z (2 * j)) ∧
    (uniformStock daily z m.stocks.length price shares j).drift =
      noise_factor * |z (2 * j + 1) * daily| ∧
    (randomStock daily z initial_price initial_amount m.stocks.length j).deviation =
      daily * (1 + drift_factor * z (2 * j)) ∧
    (randomStock daily z initial_price initial_amount m.stocks.length j).drift =
      noise_factor * |z (2 * j + 1) * daily| ∧
    priceIncrement (uniformStock daily z m.stocks.length price shares j) zs =
      roundHalfAway ((price : ℚ) *
        (noise_factor * |z (2 * j + 1) * daily| +
          daily * (1 + drift_factor * z (2 * j)) * zs)) ∧
    (create_uniform (1 / 7000) countingDraws (Market.new []) 1 10000 120).stocks =
      [⟨0, 10000, 120, 201 / 7000, 2 / 35000⟩] ∧
    simulateMarket (fun _ => 0) 0
        (create_uniform (1 / 7000) countingDraws (Market.new []) 1 10000 120).stocks =
      [⟨0, 10001, 120, 201 / 7000, 2 / 35000⟩] ∧
    (10000 : Int) + roundHalfAway ((10000 : ℚ) * (201 / 7000 + 2 / 35000 * 0)) = 10287 := by
  have hcreated : (create_uniform (1 / 7000) countingDraws (Market.new []) 1 10000 120).stocks =
      [⟨0, 10000, 120, 201 / 7000, 2 / 35000⟩] := by
    simp [create_uniform, createUniformLoop, Market.new, Stock.new, countingDraws, drift_factor,
      noise_factor]
    norm_num [abs_of_nonneg]
  have hcode : roundHalfAway ((10000 : ℚ) * (2 / 35000 + 201 / 7000 * 0)) = 1 := by
    have h : (0 : ℚ) ≤ (10000 : ℚ) * (2 / 35000 + 201 / 7000 * 0) := by norm_num
    rw [roundHalfAway, if_pos h, Int.floor_eq_iff]
    constructor <;> norm_num
  have hclaim : roundHalfAway ((10000 : ℚ) * (201 / 7000 + 2 / 35000 * 0)) = 287 := by
    have h : (0 : ℚ) ≤ (10000 : ℚ) * (201 / 7000 + 2 / 35000 * 0) := by norm_num
    rw [roundHalfAway, if_pos h, Int.floor_eq_iff]
    constructor <;> norm_num
  refine ⟨create_uniform_stocks _ _ _ _ _ _, create_stocks _ _ _ _ _ _, rfl, rfl, rfl, rfl, ?_,
    hcreated, ?_, ?_⟩
  · simp [uniformStock, Stock.new, priceIncrement]
  · rw [hcreated]
    simp only [simulateMarket]
    rw [if_neg (by decide)]
    simp only [priceIncrement, Int.cast_ofNat]
    rw [hcode]
    simp [applyIncrement]
  · rw [hclaim]; rfl

/-- C18. Free trades on a dead stock: for a stock with price 0 and a bot with cash >= 0,
a Buy order of quantity `q <= inventory` succeeds whatever the bot's cash is, moves `q`
shares from the inventory to the bot's holdings and leaves its cash unchanged; a Sell
order of quantity `q <= holdings` succeeds, returns `q` shares to the inventory and leaves
the bot's cash unchanged. -/
theorem free_trades_on_dead_stock (stocks : List Stock) (bot : Bot) (id q : Int)
    (stock : Stock) (held : Int) (hid : 0 ≤ id) (hstock : stocks[id.toNat]? = some stock)
    (hheld : bot.assets[id.toNat]? = some held) (hdead : stock.price = 0)
    (hcash : 0 ≤ bot.money) :
    (q ≤ stock.amount →
      ∃ r, settleOrder stocks bot (Order.mk id q Order.Buy) = some r ∧
        r = (stocks.set id.toNat { stock with amount := stock.amount - q },
             { bot with assets := bot.assets.set id.toNat (held + q) }) ∧
        inventory r.1 id.toNat = stock.amount - q ∧ r.2.holding id.toNat = held + q ∧
        r.2.money = bot.money) ∧
    (q ≤ held →
      ∃ r, settleOrder stocks bot (Order.mk id q Order.Sell) = some r ∧
        r = (stocks.set id.toNat { stock with amount := stock.amount + q },
             { bot with assets := bot.assets.set id.toNat (held - q) }) ∧
        inventory r.1 id.toNat = stock.amount + q ∧ r.2.holding id.toNat = held - q ∧
        r.2.money = bot.money) := by
  have hneg : ¬ id < 0 := by omega
  have hk : id.toNat < stocks.length := (List.getElem?_eq_some.mp hstock).1
  have hk2 : id.toNat < bot.assets.length := (List.getElem?_eq_some.mp hheld).1
  constructor
  · intro hinv
    have h1 : ¬ stock.amount < q := by omega
    have h2 : ¬ bot.money < 0 := by omega
    refine ⟨_, by simp [settleOrder, hneg, hstock, hheld, h1, h2, hdead], rfl, ?_, ?_, rfl⟩
    · simp [inventory, List.getElem?_set, hk]
    · simp [Bot.holding, List.getElem?_set, hk2]
  · intro hsell
    have h1 : ¬ held < q := by omega
    refine ⟨_, by simp [settleOrder, hneg, hstock, hheld, h1, hdead, Order.Buy, Order.Sell],
      rfl, ?_, ?_, rfl⟩
    · simp [inventory, List.getElem?_set, hk]
    · simp [Bot.holding, List.getElem?_set, hk2]

/-- C18, instance: `demoBot` trades 3 shares of the dead stock of `deadMarket`. -/
theorem free_trades_on_dead_stock_witness :
    (0 : Int) ≤ 0 ∧ deadMarket.stocks[(0 : Int).toNat]? = some ⟨0, 0, 120, 1 / 50, 1 / 100⟩ ∧
    demoBot.assets[(0 : Int).toNat]? = some 7 ∧ (0 : Int) ≤ demoBot.money ∧
    (((3 : Int) ≤ 120 →
      ∃ r, settleOrder deadMarket.stocks demoBot (Order.mk 0 3 Order.Buy) = some r ∧
        r = (deadMarket.stocks.set (0 : Int).toNat ⟨0, 0, 120 - 3, 1 / 50, 1 / 100⟩,
             { demoBot with assets := demoBot.assets.set (0 : Int).toNat (7 + 3) }) ∧
        inventory r.1 (0 : Int).toNat = 120 - 3 ∧ r.2.holding (0 : Int).toNat = 7 + 3 ∧
        r.2.money = demoBot.money) ∧
    ((3 : Int) ≤ 7 →
      ∃ r, settleOrder deadMarket.stocks demoBot (Order.mk 0 3 Order.Sell) = some r ∧
        r = (deadMarket.stocks.set (0 : Int).toNat ⟨0, 0, 120 + 3, 1 / 50, 1 / 100⟩,
             { demoBot with assets := demoBot.assets.set (0 : Int).toNat (7 - 3) }) ∧
        inventory r.1 (0 : Int).toNat = 120 + 3 ∧ r.2.holding (0 : Int).toNat = 7 - 3 ∧
        r.2.money = demoBot.money)) :=
  ⟨by decide, rfl, rfl, by decide,
    free_trades_on_dead_stock deadMarket.stocks demoBot 0 3 ⟨0, 0, 120, 1 / 50, 1 / 100⟩ 7
      (by decide) rfl rfl rfl (by decide)⟩

/-- C19. Settlement preserves net worth: for every market whose pending orders have
in-range stock ids, settlement (phase C alone, prices held fixed) returns, leaves the
price of every stock unchanged, and leaves the net worth
`cash + sum_i stocks[i].price * holdings[i]` of every bot the same as before. -/
theorem settlement_preserves_net_worth (m : Market) (hready : m.Ready) :
    ∃ m1, settle m = some m1 ∧
      m1.stocks.map Stock.price = m.stocks.map Stock.price ∧
      (∀ i, priceAt m1.stocks i = priceAt m.stocks i) ∧
      ∀ (q : Nat) (b : Bot), m.objs[q]? = some b →
        ∃ b1, m1.objs[q]? = some b1 ∧ netWorth m1.stocks b1 = netWorth m.stocks b := by
  obtain ⟨m1, hm1, _, _, _, _, _, hlen, _⟩ :=
    processOrders_pred (fun _ => True) (fun _ => True) (fun _ _ => trivial)
      (fun _ _ _ _ _ _ _ _ => ⟨trivial, trivial⟩) m.bots m (fun p hp => hp) hready trivial
      (fun _ _ _ _ => trivial)
  obtain ⟨hp, hq⟩ := processOrders_netWorth m.bots m m1 hm1
  refine ⟨m1, hm1, hp, fun i => priceAt_congr hp i, ?_⟩
  intro q b hb
  have hlt : q < m1.objs.length := by
    rw [hlen]; exact (List.getElem?_eq_some.mp hb).1
  obtain ⟨b0, hb0, hn⟩ := hq q _ (List.getElem?_eq_getElem hlt)
  rw [hb] at hb0
  cases hb0
  exact ⟨_, List.getElem?_eq_getElem hlt, hn⟩

/-- C19, instance: settlement of `demoMarket`, where the first bot buys 3 shares. -/
theorem settlement_preserves_net_worth_witness :
    demoMarket.Ready ∧
    ∃ m1, settle demoMarket = some m1 ∧
      m1.stocks.map Stock.price = demoMarket.stocks.map Stock.price ∧
      (∀ i, priceAt m1.stocks i = priceAt demoMarket.stocks i) ∧
      ∀ (q : Nat) (b : Bot), demoMarket.objs[q]? = some b →
        ∃ b1, m1.objs[q]? = some b1 ∧
          netWorth m1.stocks b1 = netWorth demoMarket.stocks b :=
  ⟨by decide, settlement_preserves_net_worth demoMarket (by decide)⟩

/-- C20. Later bots cannot affect earlier bots: for two runs of settlement from markets
with the same stocks and the same registration order of distinct bots, if the first `k`
registered bots are in the same state with the same pending orders in both runs, then
both runs return and each of the first `k` bots ends in the same state, cash and holdings
included, in both runs, whatever orders the bots registered after them have pending. -/
theorem later_bots_cannot_affect_earlier (m m' : Market) (k : Nat)
    (hstocks : m'.stocks = m.stocks) (hbots : m'.bots = m.bots) (hnodup : m.bots.Nodup)
    (hready : m.Ready) (hready' : m'.Ready)
    (hsame : ∀ p ∈ m.bots.take k, m'.objs[p]? = m.objs[p]?) :
    ∃ m1 m1', settle m = some m1 ∧ settle m' = some m1' ∧
      ∀ p ∈ m.bots.take k, ∃ b, m1.objs[p]? = some b ∧ m1'.objs[p]? = some b := by
  have hrun : ∀ mm : Market, mm.Ready → ∃ mm1, settle mm = some mm1 := by
    intro mm hr
    obtain ⟨mm1, h1, _⟩ :=
      processOrders_pred (fun _ => True) (fun _ => True) (fun _ _ => trivial)
        (fun _ _ _ _ _ _ _ _ => ⟨trivial, trivial⟩) mm.bots mm (fun p hp => hp) hr trivial
        (fun _ _ _ _ => trivial)
    exact ⟨mm1, h1⟩
  obtain ⟨m1, hm1⟩ := hrun m hready
  obtain ⟨m1', hm1'⟩ := hrun m' hready'
  refine ⟨m1, m1', hm1, hm1', ?_⟩
  -- split both runs after the first `k` pointers
  have hsplit : m.bots = m.bots.take k ++ m.bots.drop k := (List.take_append_drop k m.bots).symm
  simp only [settle] at hm1 hm1'
  rw [hbots] at hm1'
  rw [hsplit, processOrders_append] at hm1 hm1'
  cases hK : processOrders (m.bots.take k) m with
  | none => simp [hK] at hm1
  | some mK =>
    simp only [hK] at hm1
    obtain ⟨mK', hK', _, hobjK⟩ := processOrders_agree (m.bots.take k) m m' mK hstocks hsame hK
    simp only [hK'] at hm1'
    intro p hp
    have hdisj : p ∉ m.bots.drop k := by
      intro hmem
      rw [hsplit] at hnodup
      exact (List.nodup_append.mp hnodup).2.2 hp hmem
    have h1 := processOrders_untouched _ mK m1 hm1 p hdisj
    have h1' := processOrders_untouched _ mK' m1' hm1' p hdisj
    have hpm : p ∈ m.bots := List.mem_of_mem_take hp
    obtain ⟨b0, hb0, _⟩ := hready p hpm
    have hlen : ∃ b, m1.objs[p]? = some b := by
      obtain ⟨mm, h2, _, _, _, _, _, hl, _⟩ :=
        processOrders_pred (fun _ => True) (fun _ => True) (fun _ _ => trivial)
          (fun _ _ _ _ _ _ _ _ => ⟨trivial, trivial⟩) m.bots m (fun p hp => hp) hready trivial
          (fun _ _ _ _ => trivial)
      have hmm : mm = m1 := by
        have h3 : processOrders m.bots m = some m1 := by
          conv_lhs => rw [hsplit]
          rw [processOrders_append, hK]
          exact hm1
        rw [h2] at h3
        exact Option.some.inj h3
      subst hmm
      exact ⟨_, List.getElem?_eq_getElem (by rw [hl]; exact (List.getElem?_eq_some.mp hb0).1)⟩
    obtain ⟨b, hb⟩ := hlen
    refine ⟨b, hb, ?_⟩
    rw [h1', hobjK p hp, ← h1]
    exact hb

/-- C20, instance: `demoMarket` and `rivalMarket` differ in the orders of the second bot;
the first bot ends the same in both. -/
theorem later_bots_cannot_affect_earlier_witness :
    rivalMarket.stocks = demoMarket.stocks ∧ rivalMarket.bots = demoMarket.bots ∧
    demoMarket.bots.Nodup ∧ demoMarket.Ready ∧ rivalMarket.Ready ∧
    (∀ p ∈ demoMarket.bots.take 1, rivalMarket.objs[p]? = demoMarket.objs[p]?) ∧
    ∃ m1 m1', settle demoMarket = some m1 ∧ settle rivalMarket = some m1' ∧
      ∀ p ∈ demoMarket.bots.take 1, ∃ b, m1.objs[p]? = some b ∧ m1'.objs[p]? = some b :=
  ⟨rfl, rfl, by decide, by decide, by decide, by decide,
    later_bots_cannot_affect_earlier demoMarket rivalMarket 1 rfl rfl (by decide) (by decide)
      (by decide) (by decide)⟩

end StockMarket
